import Mathlib

/-!
Verification of the local sorting engine in `src/emu_c_utils/emu_sort_local.c`.

The C code sorts a flat buffer of `num` fixed-size elements through four public
entry points (`emu_sort_local`, `emu_sort_local_bitonic`, `emu_sort_local_merge`,
`emu_sort_local_quick`) built from shared primitives (`my_memcpy`, `swap`,
`insertion_sort`, `p_merge`, `p_merge_sort`, `p_quick_sort`, `p_bitonic_sort`,
`p_bitonic_merge`, `highestPowerofTwoLessThan`).

Embedding conventions:
* Elements of `elementSize == 8` bytes (one machine word, the size the copy and
  swap primitives handle exactly) are abstracted as values of a type `α`; the
  user comparator is `cmp : α → α → Int`, with the C contract captured by
  `CmpValid`.
* The merge-sort strategy works on contiguous sub-ranges of the buffer and its
  recursion always passes `nelem = r - l + 1`; it is embedded compositionally
  on `List α` slices (`List.take`/`List.drop` at the C midpoint split).
* The quick-sort strategy is embedded over a word-addressed memory
  `mem : Int → α` because the C code manipulates `long` cursors that can leave
  the buffer (`right = -1` when `num == 0`).  C loops with no structural
  termination measure take explicit fuel; theorems show the fuel suffices.
* Byte-granularity behavior (`my_memcpy`'s assertion, `swap`'s indexing bug)
  is embedded separately over byte memories `Int → Nat`.
* `cilk_spawn`/`cilk_sync` fork-join recursion works on provably disjoint
  ranges and every Cilk function has an implicit sync on return, so the
  sequential composition used here is the unique observable result.
-/

namespace EmuSort

universe u
variable {α : Type u}

/-- The caller contract on the three-way comparator: a consistent total
(pre)order.  `cmp a b < 0` means `a` before `b`, `= 0` ties, `> 0` after.
The two fields are sign-antisymmetry and transitivity of `cmp · · ≤ 0`;
totality and reflexivity are derived. -/
def CmpValid (cmp : α → α → Int) : Prop :=
  (∀ a b, 0 < cmp a b ↔ cmp b a < 0) ∧
  (∀ a b c, cmp a b ≤ 0 → cmp b c ≤ 0 → cmp a c ≤ 0)

/-- Sortedness of a list under the three-way comparator (ascending per
`compar`, the postcondition of every entry point). -/
def SortedBy (cmp : α → α → Int) (l : List α) : Prop :=
  l.Pairwise (fun a b => cmp a b ≤ 0)

instance (cmp : α → α → Int) (l : List α) : Decidable (SortedBy cmp l) := by
  unfold SortedBy; infer_instance

/-!
## Merge-sort strategy (`insertion_sort`, `p_merge`, `p_merge_sort`, lines 168-287)

At `elementSize == 8` each `my_memcpy` moves one element, so the strategies act
on sequences of elements.  `p_merge_sort` recurses over contiguous sub-ranges
`[l, r]` of the buffer and every call receives `nelem = r - l + 1`; since a call
reads and writes only its own range, the embedding presents each call with its
range contents as a `List α`.  The C midpoint `m = (l + r) / 2` makes the left
part `m - l + 1 = (nelem + 1) / 2` elements long.
-/

/-- Inner loop of C `insertion_sort` (lines 172-184): the element `key` is
shifted left past every prefix element comparing greater than it, i.e. it is
inserted in front of the first element `y` (scanning a sorted prefix from the
left) with `compar(y, key) > 0`. -/
def c_insert (cmp : α → α → Int) (x : α) : List α → List α
  | [] => [x]
  | y :: ys => if 0 < cmp y x then x :: y :: ys else y :: c_insert cmp x ys

/-- C `insertion_sort` (lines 168-187): for `i = 1 .. nelem-1` the element at
`i` is inserted into the sorted prefix `[0, i)`; a left fold of `c_insert`. -/
def insertion_sort (cmp : α → α → Int) (l : List α) : List α :=
  l.foldl (fun acc x => c_insert cmp x acc) []

/-- Merge loop of C `p_merge` (lines 258-286).  Both halves have been copied
into the scratch buffer; cursors `i` and `j` walk them and the output takes the
right element exactly when `compar(temp_i, temp_j) > 0`, the left one
otherwise (ties go left). -/
def p_merge (cmp : α → α → Int) : List α → List α → List α
  | [], rs => rs
  | ls, [] => ls
  | a :: ls, b :: rs =>
    if 0 < cmp a b then b :: p_merge cmp (a :: ls) rs
    else a :: p_merge cmp ls (b :: rs)

/-- C `p_merge_sort` (lines 201-228) on the contents of its range.  The
`nelem > grain` fork-join branch and the `nelem > 32` sequential branch perform
the same split at `m = (l+r)/2` followed by the same merge (the former with
`cilk_spawn`/`cilk_sync` on the two disjoint halves), so both are the split
case here; ranges of `nelem ≤ 32` inside a grain run `insertion_sort`. -/
def p_merge_sort (cmp : α → α → Int) (grain : Nat) (xs : List α) : List α :=
  if xs.length ≤ 1 then xs
  else if grain < xs.length then
    p_merge cmp (p_merge_sort cmp grain (xs.take ((xs.length + 1) / 2)))
               (p_merge_sort cmp grain (xs.drop ((xs.length + 1) / 2)))
  else if xs.length ≤ 32 then insertion_sort cmp xs
  else
    p_merge cmp (p_merge_sort cmp grain (xs.take ((xs.length + 1) / 2)))
               (p_merge_sort cmp grain (xs.drop ((xs.length + 1) / 2)))
termination_by xs.length
decreasing_by
  · simpa using Nat.lt_of_lt_of_le (by omega) (Nat.le_refl _)
  · simp only [List.length_drop]; omega
  · simpa using Nat.lt_of_lt_of_le (by omega) (Nat.le_refl _)
  · simp only [List.length_drop]; omega

/-- Modelled from the spec, section 4.2: the platform `qsort` used for counts
below the parallel threshold is not part of this repository; the spec only
requires "any correct O(n log n) average comparison sort".  It is modelled by
the (correct) insertion sort defined above. -/
def qsort_c (cmp : α → α → Int) (l : List α) : List α :=
  insertion_sort cmp l

/-- Grain policy of `emu_sort_local` / `emu_sort_local_merge`
(lines 98-103 and 137-142): `num >> 6` above 128 elements, else `num >> 3`. -/
def merge_grain (num : Nat) : Nat :=
  if 128 < num then num >>> 6 else num >>> 3

/-- C `emu_sort_local_merge` (lines 131-146) assuming the scratch allocation
succeeds: for `num > 1` run the merge sort with the two-tier grain, else
nothing. -/
def emu_sort_local_merge (cmp : α → α → Int) (xs : List α) : List α :=
  if 1 < xs.length then p_merge_sort cmp (merge_grain xs.length) xs else xs

/-- C `emu_sort_local` (lines 92-113) assuming the scratch allocation succeeds:
`num ≥ MIN_BITONIC_LENGTH (32)` runs the merge sort, below that the library
`qsort`. -/
def emu_sort_local (cmp : α → α → Int) (xs : List α) : List α :=
  if 32 ≤ xs.length then p_merge_sort cmp (merge_grain xs.length) xs
  else qsort_c cmp xs

/-!
## Scratch-buffer allocation (claim C3)

`emu_sort_local` and `emu_sort_local_merge` call `malloc(size * num)` and pass
the result to `p_merge_sort` with no null check (lines 104-105, 136-143).
`p_merge` begins by copying both halves into the scratch buffer
(lines 250-256), so a null scratch pointer is written through at the first
merge.  The variants below thread the allocation outcome; `none` is the
resulting null-pointer write (undefined behavior), not a reported error — the
code has no error return at all. -/

/-- C `p_merge` as called with a possibly-null scratch buffer: with a null
`temp` the copy loop at lines 250-256 writes through the null pointer. -/
def p_merge_null (cmp : α → α → Int) (scratchNull : Bool) (ls rs : List α) :
    Option (List α) :=
  if scratchNull then none else some (p_merge cmp ls rs)

/-- C `p_merge_sort` with a possibly-null scratch buffer (the buffer is only
dereferenced by `p_merge`; `insertion_sort` leaves use their own key buffer). -/
def p_merge_sort_null (cmp : α → α → Int) (scratchNull : Bool) (grain : Nat)
    (xs : List α) : Option (List α) :=
  if xs.length ≤ 1 then some xs
  else if grain < xs.length then do
    let ls ← p_merge_sort_null cmp scratchNull grain
      (xs.take ((xs.length + 1) / 2))
    let rs ← p_merge_sort_null cmp scratchNull grain
      (xs.drop ((xs.length + 1) / 2))
    p_merge_null cmp scratchNull ls rs
  else if xs.length ≤ 32 then some (insertion_sort cmp xs)
  else do
    let ls ← p_merge_sort_null cmp scratchNull grain
      (xs.take ((xs.length + 1) / 2))
    let rs ← p_merge_sort_null cmp scratchNull grain
      (xs.drop ((xs.length + 1) / 2))
    p_merge_null cmp scratchNull ls rs
termination_by xs.length
decreasing_by
  · simpa using Nat.lt_of_lt_of_le (by omega) (Nat.le_refl _)
  · simp only [List.length_drop]; omega
  · simpa using Nat.lt_of_lt_of_le (by omega) (Nat.le_refl _)
  · simp only [List.length_drop]; omega

/-- C `emu_sort_local_merge` with the outcome of `malloc` made explicit
(`allocOk = false` models `malloc` returning null). -/
def emu_sort_local_merge_alloc (cmp : α → α → Int) (allocOk : Bool)
    (xs : List α) : Option (List α) :=
  if 1 < xs.length then
    p_merge_sort_null cmp (!allocOk) (merge_grain xs.length) xs
  else some xs

/-- C `emu_sort_local` with the outcome of `malloc` made explicit. -/
def emu_sort_local_alloc (cmp : α → α → Int) (allocOk : Bool) (xs : List α) :
    Option (List α) :=
  if 32 ≤ xs.length then
    p_merge_sort_null cmp (!allocOk) (merge_grain xs.length) xs
  else some (qsort_c cmp xs)

/-!
## Bitonic strategy (`p_bitonic_sort`, `p_bitonic_merge`, lines 299-410)

All bitonic indices are `size_t`, so the embedding uses `Nat` positions into
the full buffer list.  `p_bitonic_merge` has no structural termination measure
(with `grain = 0` and `num = 1` the C code recurses on itself forever), so the
two recursive functions take explicit fuel and return `none` when it runs out;
the entry point passes fuel far beyond the recursion depth reached for the
grain values it computes.
-/

/-- Loop body of `hp2_go`: C `highestPowerofTwoLessThan` (lines 328-336).
`res` is a `size_t`: the shift wraps modulo `2^64`, which is what the
`res > 0` guard is for.  The loop doubles `res` and therefore runs at most 64
times before `res` reaches `0` or `res ≥ n`, so fuel 65 is never exhausted. -/
def hp2_go (n : Nat) : Nat → Nat → Nat
  | 0, res => res / 2
  | fuel + 1, res =>
    if 0 < res ∧ res < n then hp2_go n fuel ((res * 2) % 2 ^ 64) else res / 2

/-- C `highestPowerofTwoLessThan` (lines 328-336): double `res` from 1 while
`res > 0 && res < n`, then return `res >> 1`. -/
def highestPowerofTwoLessThan (n : Nat) : Nat := hp2_go n 65 1

/-- Compare-and-conditionally-swap of C `merge_worker` (lines 357-369): in
ascending mode swap when `compar(left, right) > 0`, in descending mode when
`compar(left, right) < 0`. -/
def cswap (cmp : α → α → Int) (asec : Bool) (l : List α) (i j : Nat) :
    List α :=
  match l.get? i, l.get? j with
  | some x, some y =>
      if (if asec then 0 < cmp x y else cmp x y < 0) then (l.set i y).set j x
      else l
  | _, _ => l

/-- The `emu_local_for(low, low+(num-m), grain, merge_worker, ...)` pass of
`p_bitonic_merge` (lines 391-392): compare-swap each pair `(i, i+m)` for
`i ∈ [low, low+cnt)`.  The pairs are disjoint, so the fork-join apply reduces
to this left fold. -/
def bit_pass (cmp : α → α → Int) (asec : Bool) (m : Nat) (low cnt : Nat)
    (l : List α) : List α :=
  (List.range cnt).foldl (fun acc t => cswap cmp asec acc (low + t) (low + t + m)) l

/-- Leaf case shared by `p_bitonic_sort` and `p_bitonic_merge`
(lines 310-322 and 396-409): `qsort` the sub-range ascending, then for
descending order reverse it in place with `swap` of `i` from the front and `j`
from the back. -/
def leaf_sort (cmp : α → α → Int) (asec : Bool) (low num : Nat) (l : List α) :
    List α :=
  let s := qsort_c cmp ((l.drop low).take num)
  l.take low ++ (if asec then s else s.reverse) ++ l.drop (low + num)

/-- C `p_bitonic_merge` (lines 384-410): above the grain, split at
`m = highestPowerofTwoLessThan num`, run the compare-swap pass over pairs
`(i, i+m)`, then merge both parts (spawned on disjoint ranges, implicit sync
on return). -/
def p_bitonic_merge (cmp : α → α → Int) :
    Nat → Bool → Nat → Nat → Nat → List α → Option (List α)
  | 0, _, _, _, _, _ => none
  | fuel + 1, asec, low, num, grain, l =>
    if grain < num then
      let m := highestPowerofTwoLessThan num
      do
        let l2 ← p_bitonic_merge cmp fuel asec low m grain
          (bit_pass cmp asec m low (num - m) l)
        p_bitonic_merge cmp fuel asec (low + m) (num - m) grain l2
    else if 1 < num then some (leaf_sort cmp asec low num l)
    else some l

/-- C `p_bitonic_sort` (lines 299-323): above the grain, sort the first half
(`m = num/2`) in direction `asec` and the second half in direction `!asec`
(fork-join on disjoint halves), then bitonic-merge the whole range. -/
def p_bitonic_sort (cmp : α → α → Int) :
    Nat → Bool → Nat → Nat → Nat → List α → Option (List α)
  | 0, _, _, _, _, _ => none
  | fuel + 1, asec, low, num, grain, l =>
    if grain < num then
      let m := num / 2
      do
        let l1 ← p_bitonic_sort cmp fuel asec low m grain l
        let l2 ← p_bitonic_sort cmp fuel (!asec) (low + m) (num - m) grain l1
        p_bitonic_merge cmp fuel asec low num grain l2
    else if 1 < num then some (leaf_sort cmp asec low num l)
    else some l

/-- C `emu_sort_local_bitonic` (lines 118-126): `num ≥ 32` runs the parallel
bitonic sort with grain `BITONIC_GRAIN(num) = num >> 5`, below that the library
`qsort`.  The fuel `2*num + 64` exceeds any recursion depth reachable with
`grain = num >> 5 ≥ 1`. -/
def emu_sort_local_bitonic (cmp : α → α → Int) (xs : List α) :
    Option (List α) :=
  if 32 ≤ xs.length then
    p_bitonic_sort cmp (2 * xs.length + 64) true 0 xs.length (xs.length >>> 5) xs
  else some (qsort_c cmp xs)

/-!
## Quick-sort strategy (`p_quick_sort`, lines 412-480)

`p_quick_sort` walks the buffer with `long` cursors `i`, `j` that can leave
the buffer: `emu_sort_local_quick` passes `right = num - 1` where `num - 1`
wraps for `num == 0` and converts to the `long` value `-1` (two's complement).
The buffer is therefore embedded as a word-addressed memory `mem : Int → α`
(element `k` of the caller's buffer at address `k`); out-of-range addresses
exist and hold whatever surrounds the buffer.  The partition `while` loops
have no structural measure, so they take fuel; the correctness theorems prove
the fuel passed by the embedding is never exhausted for a valid comparator. -/

/-- Word-level effect of C `swap(a, b, 8)` (lines 491-501) on a memory of
8-byte elements: exchange the two words.  (Byte-level behavior of `swap` for
other sizes is embedded separately below.) -/
def swapMem (mem : Int → α) (a b : Int) : Int → α :=
  fun k => if k = a then mem b else if k = b then mem a else mem k

/-- Midpoint computation of `p_quick_sort` (line 421):
`mid = lo + size * ((hi - lo) / size >> 1)`.  The pointer difference is an
exact multiple of `size`, so the division is exact, and `>> 1` on a `long` is
an arithmetic shift, i.e. floor division by 2 (gcc semantics; for `num == 0`
this makes `mid = left - 1`). -/
def quickMid (left right : Int) : Int := left + (right - left).fdiv 2

/-- Second half of the median-of-three selection (lines 428-433): given the
memory `m1` left by the first compare-and-swap, if `compar(hi, mid) < 0` swap
`mid` and `hi` and then, if `compar(mid, lo) < 0`, swap `mid` and `lo`. -/
def medianStep2 (cmp : α → α → Int) (m1 : Int → α) (left mid right : Int) :
    Int → α :=
  if cmp (m1 right) (m1 mid) < 0 then
    if cmp (swapMem m1 mid right mid) (swapMem m1 mid right left) < 0 then
      swapMem (swapMem m1 mid right) mid left
    else swapMem m1 mid right
  else m1

/-- Median-of-three pivot selection of `p_quick_sort` (lines 424-433): up to
three compare-and-swaps leaving the median of `base[left]`, `base[mid]`,
`base[right]` at `mid`; the first one (lines 424-426) swaps `lo` and `mid`
when `compar(mid, lo) < 0`. -/
def medianOfThree (cmp : α → α → Int) (mem : Int → α) (left right : Int) :
    Int → α :=
  medianStep2 cmp
    (if cmp (mem (quickMid left right)) (mem left) < 0 then
       swapMem mem left (quickMid left right)
     else mem)
    left (quickMid left right) right

/-- Inner scan `while (compar(base + i*size, pivot) < 0) i++;` (lines 442-444). -/
def scanUp (cmp : α → α → Int) (mem : Int → α) (piv : α) :
    Nat → Int → Option Int
  | 0, _ => none
  | fuel + 1, i => if cmp (mem i) piv < 0 then scanUp cmp mem piv fuel (i + 1)
                   else some i

/-- Inner scan `while (compar(base + j*size, pivot) > 0) j--;` (lines 447-449). -/
def scanDown (cmp : α → α → Int) (mem : Int → α) (piv : α) :
    Nat → Int → Option Int
  | 0, _ => none
  | fuel + 1, j => if 0 < cmp (mem j) piv then scanDown cmp mem piv fuel (j - 1)
                   else some j

/-- Partition loop of `p_quick_sort` (lines 440-459): while `i <= j`, run both
scans, then if the cursors have not crossed swap (only when `i < j`) and
advance both.  When the scans leave `i > j` the loop's next condition check
exits with the scanned cursors, which is returned directly here.  `sf` is the
fuel for each inner scan. -/
def partLoop (cmp : α → α → Int) (piv : α) (sf : Nat) :
    Nat → (Int → α) → Int → Int → Option ((Int → α) × Int × Int)
  | 0, _, _, _ => none
  | fuel + 1, mem, i, j =>
    if i ≤ j then
      match scanUp cmp mem piv sf i, scanDown cmp mem piv sf j with
      | some i2, some j2 =>
        if i2 ≤ j2 then
          partLoop cmp piv sf fuel
            (if i2 < j2 then swapMem mem i2 j2 else mem) (i2 + 1) (j2 - 1)
        else some (mem, i2, j2)
      | _, _ => none
    else some (mem, i, j)

/-- C `p_quick_sort` (lines 412-480): median-of-three, pivot copied out
(`my_memcpy(pivot, mid, size)`, which at `size == 8` is the plain value
`mem mid`), partition, then recurse on `[left, j]` when `left < j` and on
`[i, right]` when `i < right`.  The `(right - left) > grain` test only selects
between spawned and sequential recursion on the same two disjoint sub-ranges
(lines 461-479), which have the same sequential meaning, so the test is
dropped and `grain` is carried only to mirror the C signature.  Scan and loop
fuel `(right - left).toNat + 2` and the recursion fuel are shown sufficient in
the theorems below. -/
def p_quick_sort (cmp : α → α → Int) (grain : Nat) :
    Nat → (Int → α) → Int → Int → Option (Int → α)
  | 0, _, _, _ => none
  | fuel + 1, mem, left, right =>
    let mem1 := medianOfThree cmp mem left right
    let piv := mem1 (quickMid left right)
    let sf := (right - left).toNat + 2
    match partLoop cmp piv sf ((right - left).toNat + 2) mem1 left right with
    | none => none
    | some (mem2, i, j) => do
      let mem3 ← if left < j then p_quick_sort cmp grain fuel mem2 left j
                 else some mem2
      if i < right then p_quick_sort cmp grain fuel mem3 i right
      else some mem3

/-- C `emu_sort_local_quick` (lines 151-155) over a memory: calls
`p_quick_sort(base, num, size, compar, 0, num - 1, num >> 3)`; for `num == 0`
the `size_t` subtraction wraps and reaches `p_quick_sort` as `right = -1`.
Recursion fuel `num + 2` covers the maximal recursion depth. -/
def emu_sort_local_quick_mem (cmp : α → α → Int) (num : Nat)
    (mem : Int → α) : Option (Int → α) :=
  p_quick_sort cmp (num >>> 3) (num + 2) mem 0 ((num : Int) - 1)

/-- The contents of the element range `[left, right]` of a memory. -/
def window (mem : Int → α) (left right : Int) : List α :=
  (List.range (right + 1 - left).toNat).map (fun (t : Nat) => mem (left + (t : Int)))

/-- A list `xs` laid out as a memory at addresses `[0, xs.length)`, with junk
value `d` elsewhere. -/
def memOfList (d : α) (xs : List α) : Int → α := fun i =>
  if h : 0 ≤ i ∧ i.toNat < xs.length then xs.get ⟨i.toNat, h.2⟩ else d

/-- C `emu_sort_local_quick` on the contents of a buffer holding `xs`
(nonempty, so the junk `d` outside the buffer is taken from `xs` itself). -/
def emu_sort_local_quick_list (cmp : α → α → Int) (d : α) (xs : List α) :
    Option (List α) :=
  (emu_sort_local_quick_mem cmp xs.length (memOfList d xs)).map
    (fun mem => window mem 0 ((xs.length : Int) - 1))

/-!
## Byte-granularity primitives (`my_memcpy`, `swap`, lines 63-73 and 491-510)

These primitives manipulate raw bytes, so they are embedded over byte-addressed
memories `Int → Nat` (address to byte value).  A user element of `size` bytes
at element index `k` occupies byte addresses `[k*size, (k+1)*size)`, and the
byte-level comparator consumes the two `size`-byte blocks. -/

/-- The `size` bytes starting at byte address `a`. -/
def readBlock (mem : Int → Nat) (a : Int) (size : Nat) : List Nat :=
  (List.range size).map (fun (t : Nat) => mem (a + (t : Int)))

/-- C `my_memcpy` (lines 63-73): `assert((n & 0x7) == 0)`, then copy `n >> 3`
`long`s ascending from `from` to `to`.  `none` is the assertion firing.  For
multiples of 8 the word loop moves exactly the bytes `[dst, dst+n)` (source
and destination regions are disjoint at every call site in this file). -/
def my_memcpy (mem : Int → Nat) (dst src : Int) (n : Nat) : Option (Int → Nat) :=
  if n % 8 = 0 then
    some (fun k => if dst ≤ k ∧ k < dst + (n : Int) then mem (src + (k - dst))
                   else mem k)
  else none

/-- C `my_memcpy` into a freshly allocated buffer (the pivot copy
`my_memcpy(pivot, mid, size)` at line 436): the same assertion, and the copied
block returned by value. -/
def my_memcpy_out (mem : Int → Nat) (src : Int) (n : Nat) : Option (List Nat) :=
  if n % 8 = 0 then some (readBlock mem src n) else none

/-- Exchange of the two 8-byte words starting at byte addresses `x` and `y`. -/
def swapWord (x y : Int) (mem : Int → Nat) : Int → Nat :=
  fun k =>
    if x ≤ k ∧ k < x + 8 then mem (y + (k - x))
    else if y ≤ k ∧ k < y + 8 then mem (x + (k - y))
    else mem k

/-- C `swap` (lines 491-510): when `size` is a multiple of `sizeof(long)` it
walks `long *p = a, *q = b` with `for (i = 0; i < size; i += 8)` and exchanges
`p[i]` and `q[i]` — the loop counter advances in byte steps but indexes arrays
of `long`s, so iteration `k` exchanges the words at byte offsets `8 * (8*k) =
64*k`.  For any other `size` the function does nothing (its byte branch is
commented out). -/
def swap (a b : Int) (size : Nat) (mem : Int → Nat) : Int → Nat :=
  if size % 8 = 0 then
    (List.range (size / 8)).foldl
      (fun m (k : Nat) => swapWord (a + 64 * (k : Int)) (b + 64 * (k : Int)) m)
      mem
  else mem

/-- The byte addresses C `swap` reads and writes: the two words at byte offset
`64*k` for each loop iteration `k < size/8` (empty when the guard skips the
loop). -/
def swap_touched (a b : Int) (size : Nat) : List Int :=
  if size % 8 = 0 then
    (List.range (size / 8)).flatMap (fun k =>
      (List.range 8).map (fun (t : Nat) => a + 64 * (k : Int) + (t : Int)) ++
      (List.range 8).map (fun (t : Nat) => b + 64 * (k : Int) + (t : Int)))
  else []

/-!
## Byte-level `p_quick_sort` (for the `elementSize` assertion behavior)

The same function as `p_quick_sort` above, but at byte granularity: element
cursors are `long`s, element `k` lives at byte address `k * size`, exchanges
go through the byte-level `swap`, and the pivot copy goes through
`my_memcpy_out` whose assertion requires `size` to be a multiple of 8. -/

/-- Byte-level inner scan for `i` (lines 442-444). -/
def scanUpB (bcmp : List Nat → List Nat → Int) (size : Nat) (mem : Int → Nat)
    (piv : List Nat) : Nat → Int → Option Int
  | 0, _ => none
  | fuel + 1, i =>
    if bcmp (readBlock mem (i * size) size) piv < 0 then
      scanUpB bcmp size mem piv fuel (i + 1)
    else some i

/-- Byte-level inner scan for `j` (lines 447-449). -/
def scanDownB (bcmp : List Nat → List Nat → Int) (size : Nat) (mem : Int → Nat)
    (piv : List Nat) : Nat → Int → Option Int
  | 0, _ => none
  | fuel + 1, j =>
    if 0 < bcmp (readBlock mem (j * size) size) piv then
      scanDownB bcmp size mem piv fuel (j - 1)
    else some j

/-- Byte-level partition loop (lines 440-459), exchanging through `swap`. -/
def partLoopB (bcmp : List Nat → List Nat → Int) (size : Nat) (piv : List Nat)
    (sf : Nat) : Nat → (Int → Nat) → Int → Int →
    Option ((Int → Nat) × Int × Int)
  | 0, _, _, _ => none
  | fuel + 1, mem, i, j =>
    if i ≤ j then
      match scanUpB bcmp size mem piv sf i, scanDownB bcmp size mem piv sf j with
      | some i2, some j2 =>
        if i2 ≤ j2 then
          partLoopB bcmp size piv sf fuel
            (if i2 < j2 then swap (i2 * size) (j2 * size) size mem else mem)
            (i2 + 1) (j2 - 1)
        else some (mem, i2, j2)
      | _, _ => none
    else some (mem, i, j)

/-- Byte-level C `p_quick_sort` (lines 412-480): pointer arithmetic on byte
addresses (`lo = base + i*size`, `mid = lo + size*((hi-lo)/size >> 1)` with the
exact pointer-difference division and the arithmetic shift), the three
median-of-three exchanges through `swap`, then the pivot copy through
`my_memcpy_out` (whose assertion aborts for sizes not a multiple of 8),
partition, and recursion on the two sub-ranges. -/
def p_quick_sort_bytes (bcmp : List Nat → List Nat → Int) (size grain : Nat) :
    Nat → (Int → Nat) → Int → Int → Option (Int → Nat)
  | 0, _, _, _ => none
  | fuel + 1, mem, left, right =>
    let loA := left * size
    let hiA := right * size
    let midA := loA + size * ((right - left).fdiv 2)
    let m1 := if bcmp (readBlock mem midA size) (readBlock mem loA size) < 0
              then swap loA midA size mem else mem
    let m3 := if bcmp (readBlock m1 hiA size) (readBlock m1 midA size) < 0 then
                let m2 := swap midA hiA size m1
                if bcmp (readBlock m2 midA size) (readBlock m2 loA size) < 0
                then swap midA loA size m2 else m2
              else m1
    match my_memcpy_out m3 midA size with
    | none => none
    | some piv =>
      match partLoopB bcmp size piv ((right - left).toNat + 2)
          ((right - left).toNat + 2) m3 left right with
      | none => none
      | some (mem2, i, j) => do
        let mem3 ← if left < j then p_quick_sort_bytes bcmp size grain fuel mem2 left j
                   else some mem2
        if i < right then p_quick_sort_bytes bcmp size grain fuel mem3 i right
        else some mem3

/-- Byte-level C `emu_sort_local_quick` (lines 151-155). -/
def emu_sort_local_quick_bytes (bcmp : List Nat → List Nat → Int)
    (size num : Nat) (mem : Int → Nat) : Option (Int → Nat) :=
  p_quick_sort_bytes bcmp size (num >>> 3) (num + 2) mem 0 ((num : Int) - 1)

/-!
## Concrete comparators and inputs used in instantiations -/

/-- Three-way numeric comparator on `Nat` (a valid total order). -/
def natCmp : Nat → Nat → Int := fun a b => (a : Int) - b

/-- Three-way numeric comparator on `Int`. -/
def intCmp : Int → Int → Int := fun a b => a - b

/-- Comparator on (value, tag) pairs ordering by value only: elements can
compare equal while having different contents. -/
def pairCmp : Nat × Nat → Nat × Nat → Int := fun a b => (a.1 : Int) - (b.1 : Int)

/-- Byte-block comparator: lexicographic three-way compare (a valid total
order on equal-length blocks). -/
def lexCmpB : List Nat → List Nat → Int
  | [], [] => 0
  | [], _ :: _ => -1
  | _ :: _, [] => 1
  | x :: xs, y :: ys => if x < y then -1 else if y < x then 1 else lexCmpB xs ys

/-- A power of two. -/
def IsPow2 (m : Nat) : Prop := ∃ k, m = 2 ^ k

/-!
# Theorems

## Comparator algebra derived from `CmpValid` -/

theorem CmpValid.flip_lt {cmp : α → α → Int} (h : CmpValid cmp) (a b : α) :
    0 < cmp a b ↔ cmp b a < 0 := h.1 a b

theorem CmpValid.trans_le {cmp : α → α → Int} (h : CmpValid cmp) {a b c : α}
    (hab : cmp a b ≤ 0) (hbc : cmp b c ≤ 0) : cmp a c ≤ 0 := h.2 a b c hab hbc

theorem CmpValid.refl {cmp : α → α → Int} (h : CmpValid cmp) (a : α) :
    cmp a a = 0 := by
  rcases lt_trichotomy (cmp a a) 0 with h1 | h1 | h1
  · exact absurd ((h.1 a a).mpr h1) (by omega)
  · exact h1
  · exact absurd ((h.1 a a).mp h1) (by omega)

theorem CmpValid.flip_eq {cmp : α → α → Int} (h : CmpValid cmp) {a b : α}
    (hab : cmp a b = 0) : cmp b a = 0 := by
  have h1 := h.1 a b
  have h2 := h.1 b a
  omega

theorem CmpValid.flip_le {cmp : α → α → Int} (h : CmpValid cmp) {a b : α}
    (hab : 0 ≤ cmp a b) : cmp b a ≤ 0 := by
  have h1 := h.1 a b
  have h2 := h.1 b a
  omega

theorem CmpValid.flip_ge {cmp : α → α → Int} (h : CmpValid cmp) {a b : α}
    (hab : cmp a b ≤ 0) : 0 ≤ cmp b a := by
  have h1 := h.1 a b
  have h2 := h.1 b a
  omega

theorem CmpValid.trans_le_lt {cmp : α → α → Int} (h : CmpValid cmp) {a b c : α}
    (hab : cmp a b ≤ 0) (hbc : cmp b c < 0) : cmp a c < 0 := by
  by_contra hcon
  push_neg at hcon
  have h1 : cmp c a ≤ 0 := h.flip_le hcon
  have h2 : cmp c b ≤ 0 := h.trans_le h1 hab
  have h3 : 0 < cmp c b := (h.flip_lt c b).mpr hbc
  omega

theorem CmpValid.trans_lt_le {cmp : α → α → Int} (h : CmpValid cmp) {a b c : α}
    (hab : cmp a b < 0) (hbc : cmp b c ≤ 0) : cmp a c < 0 := by
  by_contra hcon
  push_neg at hcon
  have h1 : cmp c a ≤ 0 := h.flip_le hcon
  have h2 : cmp b a ≤ 0 := h.trans_le hbc h1
  have h3 : 0 < cmp b a := (h.flip_lt b a).mpr hab
  omega

theorem natCmp_valid : CmpValid natCmp := by
  constructor
  · intro a b; simp only [natCmp]; omega
  · intro a b c; simp only [natCmp]; omega

theorem intCmp_valid : CmpValid intCmp := by
  constructor
  · intro a b; simp only [intCmp]; omega
  · intro a b c; simp only [intCmp]; omega

theorem pairCmp_valid : CmpValid pairCmp := by
  constructor
  · intro a b; simp only [pairCmp]; omega
  · intro a b c; simp only [pairCmp]; omega

/-!
## Insertion sort -/

theorem c_insert_perm (cmp : α → α → Int) (x : α) (l : List α) :
    (c_insert cmp x l).Perm (x :: l) := by
  induction l with
  | nil => simp [c_insert]
  | cons y ys ih =>
    rw [c_insert]
    split
    · exact List.Perm.refl _
    · exact (ih.cons y).trans (List.Perm.swap x y ys)

theorem c_insert_sorted {cmp : α → α → Int} (h : CmpValid cmp) (x : α)
    {l : List α} (hs : SortedBy cmp l) : SortedBy cmp (c_insert cmp x l) := by
  induction l with
  | nil => simp [c_insert, SortedBy]
  | cons y ys ih =>
    rw [c_insert]
    rcases List.pairwise_cons.mp hs with ⟨hy, hys⟩
    split
    · rename_i hgt
      refine List.pairwise_cons.mpr ⟨?_, hs⟩
      intro b hb
      have hxy : cmp x y ≤ 0 := le_of_lt ((h.flip_lt y x).mp hgt)
      rcases hb with _ | hb
      · exact hxy
      · exact h.trans_le hxy (hy b (by assumption))
    · rename_i hle
      have hyx : cmp y x ≤ 0 := by omega
      refine List.pairwise_cons.mpr ⟨?_, ih hys⟩
      intro b hb
      have hb2 : b ∈ x :: ys := (c_insert_perm cmp x ys).mem_iff.mp hb
      rcases hb2 with _ | hb2
      · exact hyx
      · exact hy b (by assumption)

theorem sorted_head_gt_filter_nil {cmp : α → α → Int} (h : CmpValid cmp)
    {xr y : α} {ys : List α} (hs : SortedBy cmp (y :: ys))
    (hy : 0 < cmp y xr) :
    (y :: ys).filter (fun z => decide (cmp z xr = 0)) = [] := by
  rw [List.filter_eq_nil_iff]
  intro z hz
  rcases List.pairwise_cons.mp hs with ⟨hrel, _⟩
  have hzgt : 0 < cmp z xr := by
    rcases hz with _ | hz
    · exact hy
    · have h1 : cmp xr y < 0 := (h.flip_lt y xr).mp hy
      have h2 : cmp y z ≤ 0 := hrel z (by assumption)
      exact (h.flip_lt z xr).mpr (h.trans_lt_le h1 h2)
  simp only [decide_eq_true_eq]
  omega

theorem c_insert_filter {cmp : α → α → Int} (h : CmpValid cmp) (x xr : α)
    {l : List α} (hs : SortedBy cmp l) :
    (c_insert cmp x l).filter (fun z => decide (cmp z xr = 0)) =
      l.filter (fun z => decide (cmp z xr = 0)) ++
        (if cmp x xr = 0 then [x] else []) := by
  induction l with
  | nil => by_cases hx : cmp x xr = 0 <;> simp [c_insert, hx]
  | cons y ys ih =>
    rcases List.pairwise_cons.mp hs with ⟨_, hys⟩
    rw [c_insert]
    split
    · rename_i hgt
      by_cases hx : cmp x xr = 0
      · have hyxr : 0 < cmp y xr := by
          have h2 : cmp xr x = 0 := h.flip_eq hx
          have h4 : cmp y xr ≤ 0 → cmp y x ≤ 0 := fun hc =>
            h.trans_le hc (le_of_eq h2)
          omega
        have hnil := sorted_head_gt_filter_nil h hs hyxr
        have hstep : (x :: y :: ys).filter (fun z => decide (cmp z xr = 0)) =
            x :: ((y :: ys).filter (fun z => decide (cmp z xr = 0))) := by
          rw [List.filter_cons]; simp [hx]
        rw [hstep, hnil]
        simp [hx]
      · have hstep : (x :: y :: ys).filter (fun z => decide (cmp z xr = 0)) =
            (y :: ys).filter (fun z => decide (cmp z xr = 0)) := by
          rw [List.filter_cons]; simp [hx]
        rw [hstep]
        simp [hx]
    · rename_i hle
      rw [List.filter_cons, List.filter_cons, ih hys]
      by_cases hy : cmp y xr = 0 <;> simp [hy]

theorem insertion_go_sorted {cmp : α → α → Int} (h : CmpValid cmp) :
    ∀ (l acc : List α), SortedBy cmp acc →
      SortedBy cmp (l.foldl (fun a x => c_insert cmp x a) acc) := by
  intro l
  induction l with
  | nil => intro acc hacc; exact hacc
  | cons x l ih =>
    intro acc hacc
    exact ih (c_insert cmp x acc) (c_insert_sorted h x hacc)

theorem insertion_go_perm (cmp : α → α → Int) :
    ∀ (l acc : List α),
      (l.foldl (fun a x => c_insert cmp x a) acc).Perm (acc ++ l) := by
  intro l
  induction l with
  | nil => intro acc; simp
  | cons x l ih =>
    intro acc
    have h1 := ih (c_insert cmp x acc)
    have h2 : (c_insert cmp x acc ++ l).Perm (acc ++ x :: l) := by
      have h3 : (c_insert cmp x acc ++ l).Perm ((x :: acc) ++ l) :=
        (c_insert_perm cmp x acc).append_right l
      refine h3.trans ?_
      exact (List.perm_middle).symm
    exact h1.trans h2

theorem insertion_go_filter {cmp : α → α → Int} (h : CmpValid cmp) (xr : α) :
    ∀ (l acc : List α), SortedBy cmp acc →
      (l.foldl (fun a x => c_insert cmp x a) acc).filter
          (fun z => decide (cmp z xr = 0)) =
        acc.filter (fun z => decide (cmp z xr = 0)) ++
          l.filter (fun z => decide (cmp z xr = 0)) := by
  intro l
  induction l with
  | nil => intro acc _; simp
  | cons x l ih =>
    intro acc hacc
    rw [List.foldl_cons, ih (c_insert cmp x acc) (c_insert_sorted h x hacc),
      c_insert_filter h x xr hacc, List.filter_cons]
    by_cases hx : cmp x xr = 0 <;> simp [hx]

theorem insertion_sort_sorted {cmp : α → α → Int} (h : CmpValid cmp)
    (l : List α) : SortedBy cmp (insertion_sort cmp l) :=
  insertion_go_sorted h l [] (List.Pairwise.nil)

theorem insertion_sort_perm (cmp : α → α → Int) (l : List α) :
    (insertion_sort cmp l).Perm l :=
  insertion_go_perm cmp l []

theorem insertion_sort_filter {cmp : α → α → Int} (h : CmpValid cmp) (xr : α)
    (l : List α) :
    (insertion_sort cmp l).filter (fun z => decide (cmp z xr = 0)) =
      l.filter (fun z => decide (cmp z xr = 0)) := by
  have h1 := insertion_go_filter h xr l [] (List.Pairwise.nil)
  simpa [insertion_sort] using h1

theorem c_insert_append {cmp : α → α → Int} (x : α) :
    ∀ {acc : List α}, (∀ a ∈ acc, ¬ 0 < cmp a x) →
      c_insert cmp x acc = acc ++ [x] := by
  intro acc
  induction acc with
  | nil => intro _; simp [c_insert]
  | cons y ys ih =>
    intro hall
    rw [c_insert, if_neg (hall y (by simp))]
    rw [ih (fun a ha => hall a (by simp [ha]))]
    simp

theorem insertion_go_of_sorted {cmp : α → α → Int} :
    ∀ (l acc : List α), SortedBy cmp (acc ++ l) →
      l.foldl (fun a x => c_insert cmp x a) acc = acc ++ l := by
  intro l
  induction l with
  | nil => intro acc _; simp
  | cons x l ih =>
    intro acc hs
    have hcross : ∀ a ∈ acc, ¬ 0 < cmp a x := by
      intro a ha
      rcases List.pairwise_append.mp hs with ⟨_, _, hc⟩
      have := hc a ha x (by simp)
      omega
    rw [List.foldl_cons, c_insert_append x hcross]
    have hs2 : SortedBy cmp ((acc ++ [x]) ++ l) := by
      simpa [List.append_assoc] using hs
    rw [ih (acc ++ [x]) hs2]
    simp

theorem insertion_sort_of_sorted {cmp : α → α → Int} {l : List α}
    (hs : SortedBy cmp l) : insertion_sort cmp l = l := by
  have h1 := insertion_go_of_sorted l [] (by simpa using hs)
  simpa [insertion_sort] using h1

/-!
## The stable merge -/

theorem p_merge_nil_left (cmp : α → α → Int) (rs : List α) :
    p_merge cmp [] rs = rs := by
  cases rs <;> simp [p_merge]

theorem p_merge_nil_right (cmp : α → α → Int) (ls : List α) :
    p_merge cmp ls [] = ls := by
  cases ls <;> simp [p_merge]

theorem p_merge_cons_cons (cmp : α → α → Int) (a b : α) (ls rs : List α) :
    p_merge cmp (a :: ls) (b :: rs) =
      if 0 < cmp a b then b :: p_merge cmp (a :: ls) rs
      else a :: p_merge cmp ls (b :: rs) := by
  simp [p_merge]

theorem p_merge_perm (cmp : α → α → Int) :
    ∀ ls rs : List α, (p_merge cmp ls rs).Perm (ls ++ rs) := by
  intro ls
  induction ls with
  | nil => intro rs; rw [p_merge_nil_left]; simp
  | cons a ls ihl =>
    intro rs
    induction rs with
    | nil => rw [p_merge_nil_right]; simp
    | cons b rs ihr =>
      rw [p_merge_cons_cons]
      split
      · refine (ihr.cons b).trans ?_
        exact (@List.perm_middle _ b (a :: ls) rs).symm
      · exact (ihl (b :: rs)).cons a

theorem p_merge_sorted {cmp : α → α → Int} (h : CmpValid cmp) :
    ∀ ls rs : List α, SortedBy cmp ls → SortedBy cmp rs →
      SortedBy cmp (p_merge cmp ls rs) := by
  intro ls
  induction ls with
  | nil => intro rs _ hrs; rw [p_merge_nil_left]; exact hrs
  | cons a ls ihl =>
    intro rs hls hrs
    induction rs with
    | nil => rw [p_merge_nil_right]; exact hls
    | cons b rs ihr =>
      rcases List.pairwise_cons.mp hls with ⟨ha, hls2⟩
      rcases List.pairwise_cons.mp hrs with ⟨hb, hrs2⟩
      rw [p_merge_cons_cons]
      split
      · rename_i hgt
        refine List.pairwise_cons.mpr ⟨?_, ihr hrs2⟩
        intro z hz
        have hz2 : z ∈ (a :: ls) ++ rs :=
          (p_merge_perm cmp (a :: ls) rs).mem_iff.mp hz
        have hba : cmp b a ≤ 0 := le_of_lt ((h.flip_lt a b).mp hgt)
        rcases List.mem_append.mp hz2 with hz3 | hz3
        · rcases hz3 with _ | hz3
          · exact hba
          · exact h.trans_le hba (ha z (by assumption))
        · exact hb z hz3
      · rename_i hle
        have hab : cmp a b ≤ 0 := by omega
        refine List.pairwise_cons.mpr ⟨?_, ihl (b :: rs) hls2 hrs⟩
        intro z hz
        have hz2 : z ∈ ls ++ (b :: rs) :=
          (p_merge_perm cmp ls (b :: rs)).mem_iff.mp hz
        rcases List.mem_append.mp hz2 with hz3 | hz3
        · exact ha z hz3
        · rcases hz3 with _ | hz3
          · exact hab
          · exact h.trans_le hab (hb z (by assumption))

theorem p_merge_filter {cmp : α → α → Int} (h : CmpValid cmp) (xr : α) :
    ∀ ls rs : List α, SortedBy cmp ls → SortedBy cmp rs →
      (p_merge cmp ls rs).filter (fun z => decide (cmp z xr = 0)) =
        ls.filter (fun z => decide (cmp z xr = 0)) ++
          rs.filter (fun z => decide (cmp z xr = 0)) := by
  intro ls
  induction ls with
  | nil => intro rs _ _; rw [p_merge_nil_left]; simp
  | cons a ls ihl =>
    intro rs hls hrs
    induction rs with
    | nil => rw [p_merge_nil_right]; simp
    | cons b rs ihr =>
      rcases List.pairwise_cons.mp hls with ⟨ha, hls2⟩
      rcases List.pairwise_cons.mp hrs with ⟨hb, hrs2⟩
      rw [p_merge_cons_cons]
      split
      · rename_i hgt
        rw [List.filter_cons, ihr hrs2]
        by_cases hbx : cmp b xr = 0
        · have hnil : (a :: ls).filter (fun z => decide (cmp z xr = 0)) = [] := by
            refine sorted_head_gt_filter_nil h hls ?_
            have h1 : cmp xr b = 0 := h.flip_eq hbx
            have h2 : cmp a b > 0 := hgt
            have h3 : cmp a xr ≤ 0 → cmp a b ≤ 0 := fun hc =>
              h.trans_le hc (le_of_eq h1)
            omega
          rw [hnil]
          simp [hbx]
        · simp [hbx]
      · rename_i hle
        rw [List.filter_cons, ihl (b :: rs) hls2 hrs]
        by_cases hax : cmp a xr = 0 <;> simp [hax]

theorem p_merge_eq_append {cmp : α → α → Int} :
    ∀ ls rs : List α, (∀ a ∈ ls, ∀ b ∈ rs, ¬ 0 < cmp a b) →
      p_merge cmp ls rs = ls ++ rs := by
  intro ls
  induction ls with
  | nil => intro rs _; rw [p_merge_nil_left]; rfl
  | cons a ls ihl =>
    intro rs hcross
    cases rs with
    | nil => rw [p_merge_nil_right]; simp
    | cons b rs =>
      rw [p_merge_cons_cons, if_neg (hcross a (by simp) b (by simp))]
      rw [ihl (b :: rs) (fun x hx y hy => hcross x (by simp [hx]) y hy)]
      rfl

/-!
## The recursive merge sort -/

theorem sortedBy_of_short {cmp : α → α → Int} {l : List α}
    (hl : l.length ≤ 1) : SortedBy cmp l := by
  match l, hl with
  | [], _ => exact List.Pairwise.nil
  | [x], _ => simp [SortedBy]

theorem p_merge_sort_unfold (cmp : α → α → Int) (grain : Nat) (xs : List α) :
    p_merge_sort cmp grain xs =
      if xs.length ≤ 1 then xs
      else if grain < xs.length then
        p_merge cmp (p_merge_sort cmp grain (xs.take ((xs.length + 1) / 2)))
                   (p_merge_sort cmp grain (xs.drop ((xs.length + 1) / 2)))
      else if xs.length ≤ 32 then insertion_sort cmp xs
      else
        p_merge cmp (p_merge_sort cmp grain (xs.take ((xs.length + 1) / 2)))
                   (p_merge_sort cmp grain (xs.drop ((xs.length + 1) / 2))) := by
  rw [p_merge_sort]

theorem p_merge_sort_sorted {cmp : α → α → Int} (h : CmpValid cmp)
    (grain : Nat) (xs : List α) : SortedBy cmp (p_merge_sort cmp grain xs) := by
  have main : ∀ n (ys : List α), ys.length = n →
      SortedBy cmp (p_merge_sort cmp grain ys) := by
    intro n
    induction n using Nat.strong_induction_on with
    | _ n ih =>
      intro ys hn
      rw [p_merge_sort_unfold]
      split
      · exact sortedBy_of_short (by assumption)
      · rename_i hlong
        have hlen2 : 2 ≤ ys.length := by omega
        have htk : (ys.take ((ys.length + 1) / 2)).length < n := by
          simp [List.length_take]; omega
        have hdr : (ys.drop ((ys.length + 1) / 2)).length < n := by
          simp [List.length_drop]; omega
        split
        · exact p_merge_sorted h _ _ (ih _ htk _ rfl) (ih _ hdr _ rfl)
        · split
          · exact insertion_sort_sorted h ys
          · exact p_merge_sorted h _ _ (ih _ htk _ rfl) (ih _ hdr _ rfl)
  exact main xs.length xs rfl

theorem p_merge_sort_perm (cmp : α → α → Int) (grain : Nat) (xs : List α) :
    (p_merge_sort cmp grain xs).Perm xs := by
  have main : ∀ n (ys : List α), ys.length = n →
      (p_merge_sort cmp grain ys).Perm ys := by
    intro n
    induction n using Nat.strong_induction_on with
    | _ n ih =>
      intro ys hn
      rw [p_merge_sort_unfold]
      split
      · exact List.Perm.refl ys
      · rename_i hlong
        have htk : (ys.take ((ys.length + 1) / 2)).length < n := by
          simp [List.length_take]; omega
        have hdr : (ys.drop ((ys.length + 1) / 2)).length < n := by
          simp [List.length_drop]; omega
        have hsplit :
            (p_merge cmp (p_merge_sort cmp grain (ys.take ((ys.length + 1) / 2)))
              (p_merge_sort cmp grain (ys.drop ((ys.length + 1) / 2)))).Perm ys := by
          refine (p_merge_perm cmp _ _).trans ?_
          refine ((ih _ htk _ rfl).append (ih _ hdr _ rfl)).trans ?_
          rw [List.take_append_drop]
        split
        · exact hsplit
        · split
          · exact insertion_sort_perm cmp ys
          · exact hsplit
  exact main xs.length xs rfl

theorem p_merge_sort_filter {cmp : α → α → Int} (h : CmpValid cmp) (xr : α)
    (grain : Nat) (xs : List α) :
    (p_merge_sort cmp grain xs).filter (fun z => decide (cmp z xr = 0)) =
      xs.filter (fun z => decide (cmp z xr = 0)) := by
  have main : ∀ n (ys : List α), ys.length = n →
      (p_merge_sort cmp grain ys).filter (fun z => decide (cmp z xr = 0)) =
        ys.filter (fun z => decide (cmp z xr = 0)) := by
    intro n
    induction n using Nat.strong_induction_on with
    | _ n ih =>
      intro ys hn
      rw [p_merge_sort_unfold]
      split
      · rfl
      · rename_i hlong
        have htk : (ys.take ((ys.length + 1) / 2)).length < n := by
          simp [List.length_take]; omega
        have hdr : (ys.drop ((ys.length + 1) / 2)).length < n := by
          simp [List.length_drop]; omega
        have hsplit :
            (p_merge cmp (p_merge_sort cmp grain (ys.take ((ys.length + 1) / 2)))
                (p_merge_sort cmp grain (ys.drop ((ys.length + 1) / 2)))).filter
              (fun z => decide (cmp z xr = 0)) =
            ys.filter (fun z => decide (cmp z xr = 0)) := by
          rw [p_merge_filter h xr _ _ (p_merge_sort_sorted h grain _)
            (p_merge_sort_sorted h grain _), ih _ htk _ rfl, ih _ hdr _ rfl,
            ← List.filter_append, List.take_append_drop]
        split
        · exact hsplit
        · split
          · exact insertion_sort_filter h xr ys
          · exact hsplit
  exact main xs.length xs rfl

theorem p_merge_sort_of_sorted {cmp : α → α → Int} (_h : CmpValid cmp)
    (grain : Nat) {xs : List α} (hs : SortedBy cmp xs) :
    p_merge_sort cmp grain xs = xs := by
  have main : ∀ n (ys : List α), ys.length = n → SortedBy cmp ys →
      p_merge_sort cmp grain ys = ys := by
    intro n
    induction n using Nat.strong_induction_on with
    | _ n ih =>
      intro ys hn hsort
      rw [p_merge_sort_unfold]
      split
      · rfl
      · rename_i hlong
        have htk : (ys.take ((ys.length + 1) / 2)).length < n := by
          simp [List.length_take]; omega
        have hdr : (ys.drop ((ys.length + 1) / 2)).length < n := by
          simp [List.length_drop]; omega
        have hstk : SortedBy cmp (ys.take ((ys.length + 1) / 2)) :=
          List.Pairwise.sublist (List.take_sublist _ _) hsort
        have hsdr : SortedBy cmp (ys.drop ((ys.length + 1) / 2)) :=
          List.Pairwise.sublist (List.drop_sublist _ _) hsort
        have hcross : ∀ a ∈ ys.take ((ys.length + 1) / 2),
            ∀ b ∈ ys.drop ((ys.length + 1) / 2), ¬ 0 < cmp a b := by
          have hsplit : List.Pairwise (fun a b => cmp a b ≤ 0)
              (ys.take ((ys.length + 1) / 2) ++ ys.drop ((ys.length + 1) / 2)) := by
            rw [List.take_append_drop]; exact hsort
          rcases List.pairwise_append.mp hsplit with ⟨_, _, hc⟩
          intro a ha b hb
          have := hc a ha b hb
          omega
        have hsplit :
            p_merge cmp (p_merge_sort cmp grain (ys.take ((ys.length + 1) / 2)))
                (p_merge_sort cmp grain (ys.drop ((ys.length + 1) / 2))) = ys := by
          rw [ih _ htk _ rfl hstk, ih _ hdr _ rfl hsdr,
            p_merge_eq_append _ _ hcross, List.take_append_drop]
        split
        · exact hsplit
        · split
          · exact insertion_sort_of_sorted hsort
          · exact hsplit
  exact main xs.length xs rfl hs

/-!
## Merge-strategy entry points -/

theorem emu_sort_local_merge_sorted {cmp : α → α → Int} (h : CmpValid cmp)
    (xs : List α) : SortedBy cmp (emu_sort_local_merge cmp xs) := by
  rw [emu_sort_local_merge]
  split
  · exact p_merge_sort_sorted h _ xs
  · exact sortedBy_of_short (by omega)

theorem emu_sort_local_merge_perm (cmp : α → α → Int) (xs : List α) :
    (emu_sort_local_merge cmp xs).Perm xs := by
  rw [emu_sort_local_merge]
  split
  · exact p_merge_sort_perm cmp _ xs
  · exact List.Perm.refl xs

theorem emu_sort_local_merge_idem {cmp : α → α → Int} (h : CmpValid cmp)
    (xs : List α) :
    emu_sort_local_merge cmp (emu_sort_local_merge cmp xs) =
      emu_sort_local_merge cmp xs := by
  have hsort := emu_sort_local_merge_sorted h xs
  rw [show emu_sort_local_merge cmp (emu_sort_local_merge cmp xs) =
      if 1 < (emu_sort_local_merge cmp xs).length then
        p_merge_sort cmp (merge_grain (emu_sort_local_merge cmp xs).length)
          (emu_sort_local_merge cmp xs)
      else emu_sort_local_merge cmp xs from rfl]
  split
  · exact p_merge_sort_of_sorted h _ hsort
  · rfl

theorem emu_sort_local_sorted {cmp : α → α → Int} (h : CmpValid cmp)
    (xs : List α) : SortedBy cmp (emu_sort_local cmp xs) := by
  rw [emu_sort_local]
  split
  · exact p_merge_sort_sorted h _ xs
  · exact insertion_sort_sorted h xs

theorem emu_sort_local_perm (cmp : α → α → Int) (xs : List α) :
    (emu_sort_local cmp xs).Perm xs := by
  rw [emu_sort_local]
  split
  · exact p_merge_sort_perm cmp _ xs
  · exact insertion_sort_perm cmp xs

/-!
## Null scratch buffer (claim C3) -/

theorem merge_grain_lt {n : Nat} (hn : 1 ≤ n) : merge_grain n < n := by
  rw [merge_grain]
  have h6 : n >>> 6 = n / 64 := by
    rw [Nat.shiftRight_eq_div_pow]
  have h3 : n >>> 3 = n / 8 := by
    rw [Nat.shiftRight_eq_div_pow]
  split
  · rw [h6]; exact Nat.div_lt_self (by omega) (by omega)
  · rw [h3]; exact Nat.div_lt_self (by omega) (by omega)

theorem p_merge_sort_null_unfold (cmp : α → α → Int) (sn : Bool) (grain : Nat)
    (xs : List α) :
    p_merge_sort_null cmp sn grain xs =
      (if xs.length ≤ 1 then some xs
      else if grain < xs.length then do
        let ls ← p_merge_sort_null cmp sn grain (xs.take ((xs.length + 1) / 2))
        let rs ← p_merge_sort_null cmp sn grain (xs.drop ((xs.length + 1) / 2))
        p_merge_null cmp sn ls rs
      else if xs.length ≤ 32 then some (insertion_sort cmp xs)
      else do
        let ls ← p_merge_sort_null cmp sn grain (xs.take ((xs.length + 1) / 2))
        let rs ← p_merge_sort_null cmp sn grain (xs.drop ((xs.length + 1) / 2))
        p_merge_null cmp sn ls rs) := by
  rw [p_merge_sort_null]

theorem p_merge_sort_null_top_none (cmp : α → α → Int) {grain : Nat}
    {xs : List α} (h2 : 2 ≤ xs.length) (hg : grain < xs.length) :
    p_merge_sort_null cmp true grain xs = none := by
  rw [p_merge_sort_null_unfold, if_neg (by omega), if_pos hg]
  cases p_merge_sort_null cmp true grain (xs.take ((xs.length + 1) / 2)) with
  | none => rfl
  | some ls =>
    cases p_merge_sort_null cmp true grain (xs.drop ((xs.length + 1) / 2)) with
    | none => rfl
    | some rs => simp [p_merge_null]

/-- C3: when the scratch-buffer `malloc` fails, `emu_sort_local_merge` (for any
buffer of at least 2 elements) and `emu_sort_local` (for at least 32, its
merge path) perform no null check: they proceed into `p_merge_sort`, whose
`p_merge` step writes through the null scratch pointer (`none` here).  There
is no distinguishable allocation-failure abort — the code has no error path at
all, contradicting the specified error handling. -/
theorem C3_alloc_failure_writes_through_null_scratch (cmp : α → α → Int)
    (xs : List α) :
    (2 ≤ xs.length → emu_sort_local_merge_alloc cmp false xs = none) ∧
    (32 ≤ xs.length → emu_sort_local_alloc cmp false xs = none) := by
  constructor
  · intro h2
    rw [emu_sort_local_merge_alloc, if_pos (by omega)]
    exact p_merge_sort_null_top_none cmp h2 (merge_grain_lt (by omega))
  · intro h32
    rw [emu_sort_local_alloc, if_pos h32]
    exact p_merge_sort_null_top_none cmp (by omega) (merge_grain_lt (by omega))

/-- C3 witness: both entry points at concrete inputs under allocation
failure. -/
theorem C3_alloc_failure_witness :
    emu_sort_local_merge_alloc natCmp false [1, 0] = none ∧
    emu_sort_local_alloc natCmp false (List.replicate 32 0) = none :=
  ⟨(C3_alloc_failure_writes_through_null_scratch natCmp [1, 0]).1 (by decide),
   (C3_alloc_failure_writes_through_null_scratch natCmp
      (List.replicate 32 0)).2 (by decide)⟩

/-- C5: in the merge step, whenever the current left-half element and
right-half element compare equal the left one is emitted first, and merging
`[1,3,5]` with `[2,3,6]` (elements tagged by their half) yields
`[1,2,3,3,5,6]` with the left-half 3 preceding the right-half 3. -/
theorem C5_merge_tie_breaks_left :
    (∀ {β : Type u} (cmp : β → β → Int) (a b : β) (ls rs : List β),
        SortedBy cmp (a :: ls) → SortedBy cmp (b :: rs) → cmp a b = 0 →
        p_merge cmp (a :: ls) (b :: rs) = a :: p_merge cmp ls (b :: rs)) ∧
      p_merge pairCmp [(1, 0), (3, 0), (5, 0)] [(2, 1), (3, 1), (6, 1)] =
        [(1, 0), (2, 1), (3, 0), (3, 1), (5, 0), (6, 1)] := by
  constructor
  · intro β cmp a b ls rs _ _ heq
    rw [p_merge_cons_cons, if_neg (by omega)]
  · simp [p_merge_cons_cons, p_merge_nil_left, p_merge_nil_right, pairCmp]

/-- C5 witness: the tie-break equation applied at the equal pair of the
concrete example. -/
theorem C5_merge_tie_witness :
    p_merge pairCmp [(3, 0), (5, 0)] [(3, 1), (6, 1)] =
      (3, 0) :: p_merge pairCmp [(5, 0)] [(3, 1), (6, 1)] :=
  C5_merge_tie_breaks_left.1 pairCmp (3, 0) (3, 1) [(5, 0)] [(6, 1)]
    (by decide) (by decide) (by decide)

/-- C6: the merge-sort strategy is stable — for every valid comparator and
every comparison class (represented by `x`), the subsequence of
`emu_sort_local_merge cmp xs` that compares equal to `x` is exactly the
subsequence of `xs` that does, i.e. equal elements keep their relative input
order. -/
theorem C6_merge_strategy_stable {cmp : α → α → Int} (h : CmpValid cmp)
    (xs : List α) (x : α) :
    (emu_sort_local_merge cmp xs).filter (fun z => decide (cmp z x = 0)) =
      xs.filter (fun z => decide (cmp z x = 0)) := by
  rw [emu_sort_local_merge]
  split
  · exact p_merge_sort_filter h x _ xs
  · rfl

/-- C6 witness: stability of the merge entry point on a concrete list with
two equal-comparing, distinguishable pairs. -/
theorem C6_merge_strategy_stable_witness :
    (emu_sort_local_merge pairCmp
        [(2, 0), (1, 0), (2, 1), (1, 1)]).filter
        (fun z => decide (pairCmp z (2, 5) = 0)) =
      [(2, 0), (1, 0), (2, 1), (1, 1)].filter
        (fun z => decide (pairCmp z (2, 5) = 0)) :=
  C6_merge_strategy_stable pairCmp_valid [(2, 0), (1, 0), (2, 1), (1, 1)] (2, 5)

/-- C9 counterexample: the quick strategy is not idempotent.  On a buffer of
two elements that compare equal but have different contents,
`emu_sort_local_quick` swaps the pair on every run (the partition loop swaps
whenever `i < j`, and both tied elements stop their scans immediately), so
applying it twice differs from applying it once. -/
theorem C9_counterexample_quick_not_idempotent :
    (emu_sort_local_quick_list pairCmp (5, 0) [(5, 0), (5, 1)]).bind
        (emu_sort_local_quick_list pairCmp (5, 0)) ≠
      emu_sort_local_quick_list pairCmp (5, 0) [(5, 0), (5, 1)] := by
  decide

/-- C9 (amended): idempotence holds for the merge strategy — for every valid
comparator (including ones with equal-comparing, distinguishable elements),
`emu_sort_local_merge` applied twice equals it applied once, and so does
`emu_sort_local` on its merge path (`count ≥ 32`).  The quick strategy
violates idempotence (see the counterexample), and the bitonic strategy and
the small-count `qsort` fallback carry no such guarantee. -/
theorem C9_merge_strategy_idempotent {cmp : α → α → Int} (h : CmpValid cmp)
    (xs : List α) :
    emu_sort_local_merge cmp (emu_sort_local_merge cmp xs) =
        emu_sort_local_merge cmp xs ∧
    (32 ≤ xs.length →
      emu_sort_local cmp (emu_sort_local cmp xs) = emu_sort_local cmp xs) := by
  refine ⟨emu_sort_local_merge_idem h xs, ?_⟩
  intro h32
  have hlen : (emu_sort_local cmp xs).length = xs.length :=
    (emu_sort_local_perm cmp xs).length_eq
  rw [show emu_sort_local cmp (emu_sort_local cmp xs) =
      if 32 ≤ (emu_sort_local cmp xs).length then
        p_merge_sort cmp (merge_grain (emu_sort_local cmp xs).length)
          (emu_sort_local cmp xs)
      else qsort_c cmp (emu_sort_local cmp xs) from rfl]
  rw [if_pos (by omega)]
  exact p_merge_sort_of_sorted h _ (emu_sort_local_sorted h xs)

/-- C9 witness: the amended idempotence at concrete inputs, a tied pair for
the merge entry and a 40-element buffer for the dispatcher. -/
theorem C9_merge_strategy_idempotent_witness :
    emu_sort_local_merge pairCmp
        (emu_sort_local_merge pairCmp [(5, 0), (5, 1)]) =
      emu_sort_local_merge pairCmp [(5, 0), (5, 1)] ∧
    emu_sort_local natCmp (emu_sort_local natCmp (List.replicate 40 0)) =
      emu_sort_local natCmp (List.replicate 40 0) :=
  ⟨(C9_merge_strategy_idempotent pairCmp_valid [(5, 0), (5, 1)]).1,
   (C9_merge_strategy_idempotent natCmp_valid (List.replicate 40 0)).2
     (by decide)⟩

/-!
## Memory windows and word swaps (quick-sort infrastructure) -/

theorem swapMem_fst (mem : Int → α) (a b : Int) : swapMem mem a b a = mem b := by
  simp [swapMem]

theorem swapMem_snd (mem : Int → α) (a b : Int) : swapMem mem a b b = mem a := by
  by_cases hba : b = a <;> simp [swapMem, hba]

theorem swapMem_other (mem : Int → α) {a b k : Int} (hka : k ≠ a) (hkb : k ≠ b) :
    swapMem mem a b k = mem k := by
  simp [swapMem, hka, hkb]

theorem window_nil {mem : Int → α} {left right : Int} (h : right < left) :
    window mem left right = [] := by
  unfold window
  rw [show (right + 1 - left).toNat = 0 by omega]
  simp

theorem window_singleton (mem : Int → α) (a : Int) :
    window mem a a = [mem a] := by
  unfold window
  rw [show (a + 1 - a).toNat = 1 by omega,
    show List.range 1 = [0] from rfl]
  simp

theorem window_congr {m1 m2 : Int → α} {left right : Int}
    (h : ∀ k, left ≤ k → k ≤ right → m1 k = m2 k) :
    window m1 left right = window m2 left right := by
  unfold window
  refine List.map_congr_left ?_
  intro t ht
  rw [List.mem_range] at ht
  exact h (left + t) (by omega) (by omega)

theorem window_split {mem : Int → α} {left m right : Int}
    (h1 : left - 1 ≤ m) (h2 : m ≤ right) :
    window mem left right = window mem left m ++ window mem (m + 1) right := by
  unfold window
  have hn : (right + 1 - left).toNat = (m + 1 - left).toNat + (right - m).toNat := by
    omega
  rw [hn, List.range_add, List.map_append, List.map_map]
  congr 1
  rw [show (right + 1 - (m + 1)).toNat = (right - m).toNat by omega]
  refine List.map_congr_left ?_
  intro t ht
  rw [List.mem_range] at ht
  show mem (left + (((m + 1 - left).toNat + t : Nat) : Int)) =
    mem (m + 1 + (t : Int))
  congr 1
  push_cast
  omega

theorem mem_window {mem : Int → α} {left right : Int} {x : α} :
    x ∈ window mem left right ↔
      ∃ k, left ≤ k ∧ k ≤ right ∧ mem k = x := by
  unfold window
  rw [List.mem_map]
  constructor
  · rintro ⟨t, ht, hx⟩
    rw [List.mem_range] at ht
    exact ⟨left + t, by omega, by omega, hx⟩
  · rintro ⟨k, hk1, hk2, hx⟩
    refine ⟨(k - left).toNat, ?_, ?_⟩
    · rw [List.mem_range]; omega
    · rw [show left + ((k - left).toNat : Int) = k by omega]; exact hx

theorem window_set_out {mem : Int → α} {left right a : Int} (v : α)
    (ha : a < left ∨ right < a) :
    window (fun k => if k = a then v else mem k) left right =
      window mem left right := by
  refine window_congr ?_
  intro k h1 h2
  rw [if_neg (by omega)]

theorem window_swap_perm (mem : Int → α) {left right a b : Int}
    (ha1 : left ≤ a) (ha2 : a ≤ right) (hb1 : left ≤ b) (hb2 : b ≤ right) :
    (window (swapMem mem a b) left right).Perm (window mem left right) := by
  rcases eq_or_ne a b with rfl | hab
  · have : window (swapMem mem a a) left right = window mem left right := by
      refine window_congr ?_
      intro k _ _
      by_cases hka : k = a <;> simp [swapMem, hka]
    rw [this]
  · wlog hlt : a < b generalizing a b
    · have hba : b < a := by omega
      have hsymm : ∀ k, swapMem mem a b k = swapMem mem b a k := by
        intro k
        by_cases hk1 : k = a
        · subst hk1; rw [swapMem_fst, swapMem_snd]
        · by_cases hk2 : k = b
          · subst hk2; rw [swapMem_snd, swapMem_fst]
          · rw [swapMem_other mem hk1 hk2, swapMem_other mem hk2 hk1]
      rw [window_congr (fun k _ _ => hsymm k)]
      exact this hb1 hb2 ha1 ha2 (Ne.symm hab) hba
    -- a < b: decompose into [left, a-1], {a}, [a+1, b-1], {b}, [b+1, right]
    have hsa : window (swapMem mem a b) a a = [mem b] := by
      rw [window_singleton, swapMem_fst]
    have hsb : window (swapMem mem a b) b b = [mem a] := by
      rw [window_singleton, swapMem_snd]
    have hA : window (swapMem mem a b) left (a - 1) = window mem left (a - 1) :=
      window_congr (fun k h1 h2 => swapMem_other mem (by omega) (by omega))
    have hB : window (swapMem mem a b) (a + 1) (b - 1) =
        window mem (a + 1) (b - 1) :=
      window_congr (fun k h1 h2 => swapMem_other mem (by omega) (by omega))
    have hC : window (swapMem mem a b) (b + 1) right =
        window mem (b + 1) right :=
      window_congr (fun k h1 h2 => swapMem_other mem (by omega) (by omega))
    have hdecomp : ∀ m2 : Int → α, window m2 left right =
        window m2 left (a - 1) ++ window m2 a a ++
          window m2 (a + 1) (b - 1) ++ window m2 b b ++
          window m2 (b + 1) right := by
      intro m2
      rw [@window_split _ m2 left (a - 1) right (by omega) (by omega),
        show a - 1 + 1 = a from by omega,
        @window_split _ m2 a a right (by omega) (by omega),
        @window_split _ m2 (a + 1) (b - 1) right (by omega) (by omega),
        show b - 1 + 1 = b from by omega,
        @window_split _ m2 b b right (by omega) (by omega)]
      simp [List.append_assoc]
    rw [hdecomp (swapMem mem a b), hdecomp mem, hsa, hsb, hA, hB, hC,
      window_singleton, window_singleton]
    simp only [List.append_assoc, List.singleton_append]
    refine List.Perm.append_left _ ?_
    exact List.Perm.trans ((List.perm_middle).cons _)
      (List.Perm.trans (List.Perm.swap _ _ _) (((List.perm_middle).symm).cons _))

/-!
## Median-of-three pivot selection -/

theorem quickMid_bounds {left right : Int} (hlr : left ≤ right) :
    left ≤ quickMid left right ∧ quickMid left right ≤ right ∧
      (left < right → quickMid left right < right) := by
  unfold quickMid
  rw [Int.fdiv_eq_ediv _ (by omega)]
  omega

theorem swapMem_frame_out {mem : Int → α} {left right a b : Int}
    (ha : left ≤ a ∧ a ≤ right) (hb : left ≤ b ∧ b ≤ right) :
    ∀ k, k < left ∨ right < k → swapMem mem a b k = mem k := by
  intro k hk
  exact swapMem_other mem (by omega) (by omega)

theorem medianStep2_perm_frame (cmp : α → α → Int) (m1 : Int → α)
    {left mid right : Int} (hlm : left ≤ mid) (hmr : mid ≤ right) :
    (window (medianStep2 cmp m1 left mid right) left right).Perm
        (window m1 left right) ∧
    ∀ k, k < left ∨ right < k → medianStep2 cmp m1 left mid right k = m1 k := by
  have hlr : left ≤ right := le_trans hlm hmr
  unfold medianStep2
  split
  · have h2 : (window (swapMem m1 mid right) left right).Perm
        (window m1 left right) := window_swap_perm m1 hlm hmr hlr le_rfl
    have h2f : ∀ k, k < left ∨ right < k → swapMem m1 mid right k = m1 k :=
      swapMem_frame_out ⟨hlm, hmr⟩ ⟨hlr, le_rfl⟩
    split
    · have h3 : (window (swapMem (swapMem m1 mid right) mid left) left
          right).Perm (window (swapMem m1 mid right) left right) :=
        window_swap_perm _ hlm hmr le_rfl hlr
      have h3f : ∀ k, k < left ∨ right < k →
          swapMem (swapMem m1 mid right) mid left k = swapMem m1 mid right k :=
        swapMem_frame_out ⟨hlm, hmr⟩ ⟨le_rfl, hlr⟩
      exact ⟨h3.trans h2, fun k hk => by rw [h3f k hk, h2f k hk]⟩
    · exact ⟨h2, h2f⟩
  · exact ⟨List.Perm.refl _, fun k _ => rfl⟩

theorem medianOfThree_perm_frame (cmp : α → α → Int) (mem : Int → α)
    {left right : Int} (hlr : left ≤ right) :
    (window (medianOfThree cmp mem left right) left right).Perm
        (window mem left right) ∧
    ∀ k, k < left ∨ right < k → medianOfThree cmp mem left right k = mem k := by
  have hmid := quickMid_bounds hlr
  unfold medianOfThree
  have hstep := medianStep2_perm_frame cmp
    (if cmp (mem (quickMid left right)) (mem left) < 0 then
       swapMem mem left (quickMid left right)
     else mem) hmid.1 hmid.2.1
  have hpre : (window (if cmp (mem (quickMid left right)) (mem left) < 0 then
        swapMem mem left (quickMid left right)
      else mem) left right).Perm (window mem left right) ∧
      ∀ k, k < left ∨ right < k →
        (if cmp (mem (quickMid left right)) (mem left) < 0 then
          swapMem mem left (quickMid left right)
        else mem) k = mem k := by
    split
    · exact ⟨window_swap_perm mem le_rfl hlr hmid.1 hmid.2.1,
        swapMem_frame_out ⟨le_rfl, hlr⟩ ⟨hmid.1, hmid.2.1⟩⟩
    · exact ⟨List.Perm.refl _, fun k _ => rfl⟩
  exact ⟨hstep.1.trans hpre.1, fun k hk => by rw [hstep.2 k hk, hpre.2 k hk]⟩

theorem medianStep2_sentinels {cmp : α → α → Int} (h : CmpValid cmp)
    (m1 : Int → α) {left mid right : Int} (hlm : left ≤ mid) (hmr : mid ≤ right)
    (hAB : cmp (m1 left) (m1 mid) ≤ 0) :
    cmp (medianStep2 cmp m1 left mid right left)
        (medianStep2 cmp m1 left mid right mid) ≤ 0 ∧
    0 ≤ cmp (medianStep2 cmp m1 left mid right right)
        (medianStep2 cmp m1 left mid right mid) := by
  unfold medianStep2
  by_cases hc2 : cmp (m1 right) (m1 mid) < 0
  · rw [if_pos hc2]
    have hmr2 : mid ≠ right := by
      intro he; rw [he, h.refl] at hc2; omega
    have hlr2 : left ≠ right := by omega
    have e1 : swapMem m1 mid right mid = m1 right := swapMem_fst m1 mid right
    have e2 : swapMem m1 mid right right = m1 mid := swapMem_snd m1 mid right
    by_cases hlm2 : left = mid
    · -- the range has just two slots: lo == mid
      subst hlm2
      rw [e1]
      rw [if_neg (by rw [h.refl]; omega)]
      rw [e1, e2]
      constructor
      · rw [h.refl]
      · have := (h.flip_lt (m1 left) (m1 right)).mpr hc2
        omega
    · have e3 : swapMem m1 mid right left = m1 left :=
        swapMem_other m1 (Ne.symm ?hne1) hlr2
      case hne1 => exact fun he => hlm2 he.symm
      rw [e1, e3]
      by_cases hc3 : cmp (m1 right) (m1 left) < 0
      · rw [if_pos hc3]
        have f1 : swapMem (swapMem m1 mid right) mid left left =
            swapMem m1 mid right mid := swapMem_snd _ mid left
        have f2 : swapMem (swapMem m1 mid right) mid left mid =
            swapMem m1 mid right left := swapMem_fst _ mid left
        have f3 : swapMem (swapMem m1 mid right) mid left right =
            swapMem m1 mid right right := by
          refine swapMem_other _ (Ne.symm hmr2) (Ne.symm hlr2)
        rw [f1, f2, f3, e1, e2, e3]
        constructor
        · omega
        · exact (h.flip_ge hAB)
      · rw [if_neg hc3]
        rw [e1, e2, e3]
        constructor
        · exact h.flip_le (by omega)
        · have := (h.flip_lt (m1 mid) (m1 right)).mpr hc2
          omega
  · rw [if_neg hc2]
    exact ⟨hAB, by omega⟩

theorem medianOfThree_sentinels {cmp : α → α → Int} (h : CmpValid cmp)
    (mem : Int → α) {left right : Int} (hlr : left ≤ right) :
    cmp (medianOfThree cmp mem left right left)
        (medianOfThree cmp mem left right (quickMid left right)) ≤ 0 ∧
    0 ≤ cmp (medianOfThree cmp mem left right right)
        (medianOfThree cmp mem left right (quickMid left right)) := by
  have hmid := quickMid_bounds hlr
  unfold medianOfThree
  refine medianStep2_sentinels h _ hmid.1 hmid.2.1 ?_
  split
  · rename_i hc1
    rw [swapMem_fst, swapMem_snd]
    omega
  · rename_i hc1
    exact h.flip_le (by omega)

/-!
## The partition scans -/

theorem scanUp_spec {cmp : α → α → Int} {mem : Int → α} {piv : α} :
    ∀ fuel (i i2 : Int), scanUp cmp mem piv fuel i = some i2 →
      i ≤ i2 ∧ ¬ cmp (mem i2) piv < 0 ∧
        ∀ k, i ≤ k → k < i2 → cmp (mem k) piv < 0 := by
  intro fuel
  induction fuel with
  | zero => intro i i2 hcon; simp [scanUp] at hcon
  | succ f ih =>
    intro i i2 hsome
    simp only [scanUp] at hsome
    by_cases hc : cmp (mem i) piv < 0
    · rw [if_pos hc] at hsome
      obtain ⟨h1, h2, h3⟩ := ih (i + 1) i2 hsome
      refine ⟨by omega, h2, ?_⟩
      intro k hk1 hk2
      rcases eq_or_lt_of_le hk1 with rfl | hk3
      · exact hc
      · exact h3 k (by omega) hk2
    · rw [if_neg hc] at hsome
      obtain rfl : i = i2 := by simpa using hsome
      exact ⟨le_rfl, hc, fun k hk1 hk2 => ((by omega : False)).elim⟩

theorem scanUp_stops {cmp : α → α → Int} {mem : Int → α} {piv : α} :
    ∀ fuel (i stop : Int), i ≤ stop → ¬ cmp (mem stop) piv < 0 →
      (stop - i).toNat < fuel →
      ∃ i2, scanUp cmp mem piv fuel i = some i2 ∧ i2 ≤ stop := by
  intro fuel
  induction fuel with
  | zero => intro i stop _ _ hcon; omega
  | succ f ih =>
    intro i stop h1 h2 h3
    by_cases hc : cmp (mem i) piv < 0
    · have hne : i ≠ stop := by
        intro he; subst he; exact h2 hc
      obtain ⟨i2, hs, hb⟩ := ih (i + 1) stop (by omega) h2 (by omega)
      exact ⟨i2, by simp only [scanUp]; rw [if_pos hc]; exact hs, hb⟩
    · exact ⟨i, by simp only [scanUp]; rw [if_neg hc], h1⟩

theorem scanDown_spec {cmp : α → α → Int} {mem : Int → α} {piv : α} :
    ∀ fuel (j j2 : Int), scanDown cmp mem piv fuel j = some j2 →
      j2 ≤ j ∧ ¬ 0 < cmp (mem j2) piv ∧
        ∀ k, j2 < k → k ≤ j → 0 < cmp (mem k) piv := by
  intro fuel
  induction fuel with
  | zero => intro j j2 hcon; simp [scanDown] at hcon
  | succ f ih =>
    intro j j2 hsome
    simp only [scanDown] at hsome
    by_cases hc : 0 < cmp (mem j) piv
    · rw [if_pos hc] at hsome
      obtain ⟨h1, h2, h3⟩ := ih (j - 1) j2 hsome
      refine ⟨by omega, h2, ?_⟩
      intro k hk1 hk2
      rcases eq_or_lt_of_le hk2 with rfl | hk3
      · exact hc
      · exact h3 k hk1 (by omega)
    · rw [if_neg hc] at hsome
      obtain rfl : j = j2 := by simpa using hsome
      exact ⟨le_rfl, hc, fun k hk1 hk2 => ((by omega : False)).elim⟩

theorem scanDown_stops {cmp : α → α → Int} {mem : Int → α} {piv : α} :
    ∀ fuel (j stop : Int), stop ≤ j → ¬ 0 < cmp (mem stop) piv →
      (j - stop).toNat < fuel →
      ∃ j2, scanDown cmp mem piv fuel j = some j2 ∧ stop ≤ j2 := by
  intro fuel
  induction fuel with
  | zero => intro j stop _ _ hcon; omega
  | succ f ih =>
    intro j stop h1 h2 h3
    by_cases hc : 0 < cmp (mem j) piv
    · have hne : j ≠ stop := by
        intro he; subst he; exact h2 hc
      obtain ⟨j2, hs, hb⟩ := ih (j - 1) stop (by omega) h2 (by omega)
      exact ⟨j2, by simp only [scanDown]; rw [if_pos hc]; exact hs, hb⟩
    · exact ⟨j, by simp only [scanDown]; rw [if_neg hc], h1⟩

/-!
## The partition loop -/

theorem partLoop_spec {cmp : α → α → Int} (_h : CmpValid cmp) {piv : α}
    {left right : Int} {sf : Nat} (hsf : (right - left).toNat + 2 ≤ sf) :
    ∀ fuel (mem : Int → α) (i j : Int),
      left ≤ i → i ≤ right + 1 → left - 1 ≤ j → j ≤ right →
      (∀ k, left ≤ k → k < i → cmp (mem k) piv ≤ 0) →
      (∀ k, j < k → k ≤ right → 0 ≤ cmp (mem k) piv) →
      (i ≤ j → (∃ k, i ≤ k ∧ k ≤ right ∧ 0 ≤ cmp (mem k) piv) ∧
               (∃ k, left ≤ k ∧ k ≤ j ∧ cmp (mem k) piv ≤ 0)) →
      ((i = left ∧ j = right ∧
          ∃ km, left ≤ km ∧ km ≤ right ∧ cmp (mem km) piv = 0) ∨
        (left < i ∧ j < right)) →
      1 ≤ fuel → (j - i + 4).toNat ≤ 2 * fuel →
      ∃ mem2 i2 j2,
        partLoop cmp piv sf fuel mem i j = some (mem2, i2, j2) ∧
        j2 < i2 ∧ left < i2 ∧ j2 < right ∧ i2 ≤ right + 1 ∧ left - 1 ≤ j2 ∧
        (∀ k, left ≤ k → k < i2 → cmp (mem2 k) piv ≤ 0) ∧
        (∀ k, j2 < k → k ≤ right → 0 ≤ cmp (mem2 k) piv) ∧
        (window mem2 left right).Perm (window mem left right) ∧
        (∀ k, k < left ∨ right < k → mem2 k = mem k) := by
  intro fuel
  induction fuel with
  | zero => intro mem i j _ _ _ _ _ _ _ _ hcon _; omega
  | succ f ih =>
    intro mem i j hil hir hjl hjr hINVL hINVR hSENT hPROG h1f hmf
    by_cases hij : i ≤ j
    · -- one loop iteration: run both scans
      have hlr : left ≤ right := by omega
      obtain ⟨⟨ku, hku1, hku2, hku3⟩, ⟨kd, hkd1, hkd2, hkd3⟩⟩ := hSENT hij
      have hkustop : ¬ cmp (mem ku) piv < 0 := by
        clear * - hku3; omega
      have hkdstop : ¬ 0 < cmp (mem kd) piv := by
        clear * - hkd3; omega
      have hfu : (ku - i).toNat < sf := by
        clear * - hku1 hku2 hil hjr hsf hij hjl; omega
      have hfd : (j - kd).toNat < sf := by
        clear * - hkd1 hkd2 hil hjr hsf hij hir; omega
      obtain ⟨i2, hsU, hi2stop⟩ :=
        @scanUp_stops _ cmp mem piv sf i ku hku1 hkustop hfu
      obtain ⟨j2, hsD, hj2stop⟩ :=
        @scanDown_stops _ cmp mem piv sf j kd hkd2 hkdstop hfd
      obtain ⟨hii2, hstopU, hpassU⟩ := scanUp_spec sf i i2 hsU
      obtain ⟨hjj2, hstopD, hpassD⟩ := scanDown_spec sf j j2 hsD
      have hi2r : i2 ≤ right := by omega
      have hj2l : left ≤ j2 := by omega
      have hINVL2 : ∀ k, left ≤ k → k < i2 → cmp (mem k) piv ≤ 0 := by
        intro k hk1 hk2
        by_cases hk3 : k < i
        · exact hINVL k hk1 hk3
        · exact le_of_lt (hpassU k (by omega) hk2)
      have hINVR2 : ∀ k, j2 < k → k ≤ right → 0 ≤ cmp (mem k) piv := by
        intro k hk1 hk2
        by_cases hk3 : j < k
        · exact hINVR k hk3 hk2
        · exact le_of_lt (hpassD k hk1 (by omega))
      have heq : partLoop cmp piv sf (f + 1) mem i j =
          (if i2 ≤ j2 then
            partLoop cmp piv sf f
              (if i2 < j2 then swapMem mem i2 j2 else mem) (i2 + 1) (j2 - 1)
          else some (mem, i2, j2)) := by
        simp only [partLoop]
        rw [if_pos hij, hsU, hsD]
      rw [heq]
      by_cases hij2 : i2 ≤ j2
      · rw [if_pos hij2]
        have hvi2 : cmp ((if i2 < j2 then swapMem mem i2 j2 else mem) i2) piv
            ≤ 0 := by
          split
          · rw [swapMem_fst]; omega
          · have : i2 = j2 := by omega
            rw [this]; omega
        have hvj2 : 0 ≤ cmp ((if i2 < j2 then swapMem mem i2 j2 else mem) j2)
            piv := by
          split
          · rw [swapMem_snd]; omega
          · have : i2 = j2 := by omega
            rw [← this]; omega
        have hother : ∀ k, k ≠ i2 → k ≠ j2 →
            (if i2 < j2 then swapMem mem i2 j2 else mem) k = mem k := by
          intro k hk1 hk2
          split
          · exact swapMem_other mem hk1 hk2
          · rfl
        obtain ⟨mem2, i3, j3, heq2, hlt3, hli3, hj3r, hi3r, hlj3, hL3, hR3,
            hperm3, hframe3⟩ :=
          ih (if i2 < j2 then swapMem mem i2 j2 else mem) (i2 + 1) (j2 - 1)
            (by omega) (by omega) (by omega) (by omega)
            (by
              intro k hk1 hk2
              by_cases hk3 : k = i2
              · subst hk3; exact hvi2
              · rw [hother k hk3 (by omega)]
                exact hINVL2 k hk1 (by omega))
            (by
              intro k hk1 hk2
              by_cases hk3 : k = j2
              · subst hk3; exact hvj2
              · rw [hother k (by omega) hk3]
                exact hINVR2 k (by omega) hk2)
            (by
              intro hij3
              exact ⟨⟨j2, by omega, by omega, hvj2⟩,
                ⟨i2, by omega, by omega, hvi2⟩⟩)
            (Or.inr ⟨by omega, by omega⟩)
            (by omega) (by omega)
        have hpermS : (window (if i2 < j2 then swapMem mem i2 j2 else mem)
            left right).Perm (window mem left right) := by
          split
          · exact window_swap_perm mem (by omega) (by omega) (by omega)
              (by omega)
          · exact List.Perm.refl _
        have hframeS : ∀ k, k < left ∨ right < k →
            (if i2 < j2 then swapMem mem i2 j2 else mem) k = mem k := by
          intro k hk
          exact hother k (by omega) (by omega)
        exact ⟨mem2, i3, j3, heq2, hlt3, hli3, hj3r, hi3r, hlj3, hL3, hR3,
          hperm3.trans hpermS,
          fun k hk => by rw [hframe3 k hk, hframeS k hk]⟩
      · rw [if_neg hij2]
        -- the scans crossed: the loop exits with (mem, i2, j2)
        have hbound : left < i2 ∧ j2 < right := by
          rcases hPROG with ⟨hieq, hjeq, km, hkm1, hkm2, hkmeq⟩ | hlater
          · exfalso
            by_cases hkmi : km < i2
            · have := hpassU km (by omega) hkmi
              omega
            · have := hpassD km (by omega) (by omega)
              omega
          · omega
        exact ⟨mem, i2, j2, rfl, by omega, hbound.1, hbound.2, by omega,
          by omega, hINVL2, hINVR2, List.Perm.refl _, fun k _ => rfl⟩
    · -- loop condition fails at entry
      have heq : partLoop cmp piv sf (f + 1) mem i j = some (mem, i, j) := by
        simp only [partLoop]
        rw [if_neg hij]
      have hbound : left < i ∧ j < right := by
        rcases hPROG with ⟨hieq, hjeq, km, hkm1, hkm2, _⟩ | hlater
        · omega
        · exact hlater
      exact ⟨mem, i, j, heq, by omega, hbound.1, hbound.2, hir, hjl,
        hINVL, hINVR, List.Perm.refl _, fun k _ => rfl⟩

/-!
## Full quick-sort correctness -/

theorem p_quick_sort_spec {cmp : α → α → Int} (h : CmpValid cmp) (grain : Nat) :
    ∀ fuel (mem : Int → α) (left right : Int),
      left ≤ right → (right - left).toNat < fuel →
      ∃ mem4, p_quick_sort cmp grain fuel mem left right = some mem4 ∧
        SortedBy cmp (window mem4 left right) ∧
        (window mem4 left right).Perm (window mem left right) ∧
        (∀ k, k < left ∨ right < k → mem4 k = mem k) := by
  intro fuel
  induction fuel with
  | zero => intro mem left right _ hcon; omega
  | succ f ih =>
    intro mem left right hlr hfuel
    have hmed := medianOfThree_perm_frame cmp mem hlr
    have hsent := medianOfThree_sentinels h mem hlr
    have hmid := quickMid_bounds hlr
    obtain ⟨mem2, i2, j2, hpart, hji, hli, hjr, hir, hlj, hL, hR, hperm2,
        hframe2⟩ :=
      @partLoop_spec _ cmp h
        (medianOfThree cmp mem left right (quickMid left right)) left right
        ((right - left).toNat + 2)
        (le_refl ((right - left).toNat + 2)) ((right - left).toNat + 2)
        (medianOfThree cmp mem left right) left right
        (le_refl left) (by omega) (by omega) (le_refl right)
        (fun k hk1 hk2 => absurd hk2 (by omega))
        (fun k hk1 hk2 => absurd hk1 (by omega))
        (fun _ => ⟨⟨right, by omega, le_refl right, hsent.2⟩,
          ⟨left, le_refl left, by omega, hsent.1⟩⟩)
        (Or.inl ⟨rfl, rfl, quickMid left right, hmid.1, hmid.2.1,
          h.refl _⟩)
        (by omega) (by omega)
    have heq : p_quick_sort cmp grain (f + 1) mem left right =
        (do
          let mem3 ← if left < j2 then p_quick_sort cmp grain f mem2 left j2
                     else some mem2
          if i2 < right then p_quick_sort cmp grain f mem3 i2 right
          else some mem3) := by
      show (match partLoop cmp
            (medianOfThree cmp mem left right (quickMid left right))
            ((right - left).toNat + 2) ((right - left).toNat + 2)
            (medianOfThree cmp mem left right) left right with
          | none => none
          | some (mem2, i, j) => do
            let mem3 ← if left < j then p_quick_sort cmp grain f mem2 left j
                       else some mem2
            if i < right then p_quick_sort cmp grain f mem3 i right
            else some mem3) = _
      rw [hpart]
    -- first recursive call, on [left, j2]
    obtain ⟨mem3, hs3, hsorted1, hperm1, hframe1⟩ :
        ∃ mem3, (if left < j2 then p_quick_sort cmp grain f mem2 left j2
            else some mem2) = some mem3 ∧
          SortedBy cmp (window mem3 left j2) ∧
          (window mem3 left j2).Perm (window mem2 left j2) ∧
          ∀ k, k < left ∨ j2 < k → mem3 k = mem2 k := by
      by_cases hrec1 : left < j2
      · obtain ⟨mem3, heq3, hsort3, hperm3, hframe3⟩ :=
          ih mem2 left j2 (le_of_lt hrec1) (by omega)
        exact ⟨mem3, by rw [if_pos hrec1]; exact heq3, hsort3, hperm3, hframe3⟩
      · refine ⟨mem2, by rw [if_neg hrec1], ?_, List.Perm.refl _,
          fun k _ => rfl⟩
        refine sortedBy_of_short ?_
        unfold window
        simp only [List.length_map, List.length_range]
        omega
    -- second recursive call, on [i2, right]
    obtain ⟨mem4, hs4, hsorted2, hperm2b, hframe2b⟩ :
        ∃ mem4, (if i2 < right then p_quick_sort cmp grain f mem3 i2 right
            else some mem3) = some mem4 ∧
          SortedBy cmp (window mem4 i2 right) ∧
          (window mem4 i2 right).Perm (window mem3 i2 right) ∧
          ∀ k, k < i2 ∨ right < k → mem4 k = mem3 k := by
      by_cases hrec2 : i2 < right
      · obtain ⟨mem4, heq4, hsort4, hperm4, hframe4⟩ :=
          ih mem3 i2 right (le_of_lt hrec2) (by omega)
        exact ⟨mem4, by rw [if_pos hrec2]; exact heq4, hsort4, hperm4, hframe4⟩
      · refine ⟨mem3, by rw [if_neg hrec2], ?_, List.Perm.refl _,
          fun k _ => rfl⟩
        refine sortedBy_of_short ?_
        unfold window
        simp only [List.length_map, List.length_range]
        omega
    -- shared decomposition of [left, right] into the three segments
    have hsplit4 : window mem4 left right =
        window mem4 left j2 ++ (window mem4 (j2 + 1) (i2 - 1) ++
          window mem4 i2 right) := by
      rw [@window_split _ mem4 left j2 right (by omega) (by omega),
        @window_split _ mem4 (j2 + 1) (i2 - 1) right (by omega) (by omega),
        show i2 - 1 + 1 = i2 from by omega]
    have hsplit2 : window mem2 left right =
        window mem2 left j2 ++ (window mem2 (j2 + 1) (i2 - 1) ++
          window mem2 i2 right) := by
      rw [@window_split _ mem2 left j2 right (by omega) (by omega),
        @window_split _ mem2 (j2 + 1) (i2 - 1) right (by omega) (by omega),
        show i2 - 1 + 1 = i2 from by omega]
    have hseg1 : window mem4 left j2 = window mem3 left j2 :=
      window_congr (fun k hk1 hk2 => hframe2b k (Or.inl (by omega)))
    have hseg2 : window mem4 (j2 + 1) (i2 - 1) =
        window mem2 (j2 + 1) (i2 - 1) := by
      refine window_congr (fun k hk1 hk2 => ?_)
      rw [hframe2b k (Or.inl (by omega)), hframe1 k (Or.inr (by omega))]
    have hseg3 : (window mem4 i2 right).Perm (window mem2 i2 right) := by
      refine hperm2b.trans ?_
      rw [window_congr (fun k hk1 hk2 => hframe1 k (Or.inr (by omega)))]
    have hmem1le : ∀ x ∈ window mem4 left j2,
        cmp x (medianOfThree cmp mem left right (quickMid left right)) ≤ 0 := by
      intro x hx
      rw [hseg1] at hx
      have hx2 := hperm1.mem_iff.mp hx
      obtain ⟨k, hk1, hk2, hk3⟩ := mem_window.mp hx2
      rw [← hk3]
      exact hL k hk1 (by omega)
    have hmem2eq : ∀ x ∈ window mem4 (j2 + 1) (i2 - 1),
        cmp x (medianOfThree cmp mem left right (quickMid left right)) = 0 := by
      intro x hx
      rw [hseg2] at hx
      obtain ⟨k, hk1, hk2, hk3⟩ := mem_window.mp hx
      rw [← hk3]
      have h1 := hL k (by omega) (by omega)
      have h2 := hR k (by omega) (by omega)
      omega
    have hmem3ge : ∀ x ∈ window mem4 i2 right,
        0 ≤ cmp x (medianOfThree cmp mem left right (quickMid left right)) := by
      intro x hx
      have hx2 := hseg3.mem_iff.mp hx
      obtain ⟨k, hk1, hk2, hk3⟩ := mem_window.mp hx2
      rw [← hk3]
      exact hR k (by omega) hk2
    refine ⟨mem4, ?_, ?_, ?_, ?_⟩
    · -- the call returns some mem4
      rw [heq]
      by_cases hrec1 : left < j2
      · rw [if_pos hrec1] at hs3
        rw [if_pos hrec1, hs3]
        show (if i2 < right then p_quick_sort cmp grain f mem3 i2 right
              else some mem3) = some mem4
        exact hs4
      · rw [if_neg hrec1] at hs3
        have hs3e : mem3 = mem2 := by
          have := hs3.symm
          simpa using this
        subst hs3e
        rw [if_neg hrec1]
        show (if i2 < right then p_quick_sort cmp grain f mem3 i2 right
              else some mem3) = some mem4
        exact hs4
    · -- sortedness of the three concatenated segments
      show SortedBy cmp (window mem4 left right)
      rw [hsplit4]
      refine List.pairwise_append.mpr ⟨?_, List.pairwise_append.mpr
        ⟨?_, hsorted2, ?_⟩, ?_⟩
      · rw [hseg1]; exact hsorted1
      · -- the all-pivot middle segment
        refine List.pairwise_of_forall_mem_list ?_
        intro x hx y hy
        have h1 := hmem2eq x hx
        have h2 := h.flip_eq (hmem2eq y hy)
        exact h.trans_le (le_of_eq h1) (le_of_eq h2)
      · intro x hx y hy
        exact h.trans_le (le_of_eq (hmem2eq x hx)) (h.flip_le (hmem3ge y hy))
      · intro x hx y hy
        rcases List.mem_append.mp hy with hy2 | hy2
        · exact h.trans_le (hmem1le x hx)
            (le_of_eq (h.flip_eq (hmem2eq y hy2)))
        · exact h.trans_le (hmem1le x hx) (h.flip_le (hmem3ge y hy2))
    · -- permutation with the original window
      show (window mem4 left right).Perm (window mem left right)
      have hstep1 : (window mem4 left right).Perm (window mem2 left right) := by
        rw [hsplit4, hsplit2]
        refine List.Perm.append ?_ (List.Perm.append ?_ hseg3)
        · rw [hseg1]; exact hperm1
        · rw [hseg2]
      refine hstep1.trans (hperm2.trans hmed.1)
    · -- memory outside [left, right] is untouched
      intro k hk
      rw [hframe2b k (by omega), hframe1 k (by omega), hframe2 k hk,
        hmed.2 k hk]

/-!
## The quick entry point on lists -/

theorem memOfList_window (d : α) (xs : List α) :
    window (memOfList d xs) 0 ((xs.length : Int) - 1) = xs := by
  refine List.ext_getElem ?_ ?_
  · unfold window
    simp only [List.length_map, List.length_range]
    omega
  · intro n h1 h2
    unfold window at h1 ⊢
    simp only [List.length_map, List.length_range] at h1
    rw [List.getElem_map, List.getElem_range]
    unfold memOfList
    rw [dif_pos ⟨by omega, by simpa using (by omega : n < xs.length)⟩]
    simp

theorem emu_sort_local_quick_list_spec {cmp : α → α → Int} (h : CmpValid cmp)
    (d : α) (xs : List α) (hne : xs ≠ []) :
    ∃ ys, emu_sort_local_quick_list cmp d xs = some ys ∧
      SortedBy cmp ys ∧ ys.Perm xs := by
  have hlen : 1 ≤ xs.length := List.length_pos.mpr hne
  obtain ⟨mem4, heq, hsort, hperm, _⟩ :=
    p_quick_sort_spec h (xs.length >>> 3) (xs.length + 2) (memOfList d xs) 0
      ((xs.length : Int) - 1) (by omega) (by omega)
  refine ⟨window mem4 0 ((xs.length : Int) - 1), ?_, hsort, ?_⟩
  · unfold emu_sort_local_quick_list emu_sort_local_quick_mem
    rw [show ((xs.length : Int) - 1) = ((xs.length : Int) - 1) from rfl, heq]
    rfl
  · exact hperm.trans (by rw [memOfList_window])

set_option maxRecDepth 40000

/-- C1 counterexample: the bitonic entry point does not sort.  On the
33-element buffer `[1, 0, 0, ..., 0]` (count 33 ≥ 32 takes the parallel
bitonic path, grain `33 >> 5 = 1`), `emu_sort_local_bitonic` terminates but
leaves the buffer unsorted: the recursion makes ascending-then-descending
sequences while the non-power-of-two merge of `highestPowerofTwoLessThan`
pairs is only correct for descending-then-ascending input. -/
theorem C1_counterexample_bitonic_unsorted :
    emu_sort_local_bitonic natCmp (1 :: List.replicate 32 0) ≠ none ∧
    ¬ SortedBy natCmp
      ((emu_sort_local_bitonic natCmp (1 :: List.replicate 32 0)).getD []) := by
  constructor
  · decide
  · decide

/-- C1 (amended): at `elementSize == 8` (the element size the copy and swap
primitives handle), `emu_sort_local` and `emu_sort_local_merge` terminate with
the buffer a permutation of the input that is non-decreasing under every
valid comparator, for every count; `emu_sort_local_quick` does so for every
count ≥ 1.  The bitonic entry point is excluded (counterexample at count 33),
`emu_sort_local_quick` at count 0 touches memory outside the buffer (C2), and
element sizes that are not multiples of 8 abort in `my_memcpy` (C4). -/
theorem C1_amended_entry_points_sort {cmp : α → α → Int} (h : CmpValid cmp)
    (xs : List α) :
    (SortedBy cmp (emu_sort_local cmp xs) ∧ (emu_sort_local cmp xs).Perm xs) ∧
    (SortedBy cmp (emu_sort_local_merge cmp xs) ∧
      (emu_sort_local_merge cmp xs).Perm xs) ∧
    (xs ≠ [] → ∀ d, ∃ ys, emu_sort_local_quick_list cmp d xs = some ys ∧
      SortedBy cmp ys ∧ ys.Perm xs) :=
  ⟨⟨emu_sort_local_sorted h xs, emu_sort_local_perm cmp xs⟩,
   ⟨emu_sort_local_merge_sorted h xs, emu_sort_local_merge_perm cmp xs⟩,
   fun hne d => emu_sort_local_quick_list_spec h d xs hne⟩

/-- C1 witness: the amended statement applied to a concrete buffer and
comparator. -/
theorem C1_amended_entry_points_sort_witness :
    (SortedBy natCmp (emu_sort_local natCmp [2, 0, 1]) ∧
      (emu_sort_local natCmp [2, 0, 1]).Perm [2, 0, 1]) ∧
    (SortedBy natCmp (emu_sort_local_merge natCmp [2, 0, 1]) ∧
      (emu_sort_local_merge natCmp [2, 0, 1]).Perm [2, 0, 1]) ∧
    ([2, 0, 1] ≠ ([] : List Nat) →
      ∀ d, ∃ ys, emu_sort_local_quick_list natCmp d [2, 0, 1] = some ys ∧
        SortedBy natCmp ys ∧ ys.Perm [2, 0, 1]) :=
  C1_amended_entry_points_sort natCmp_valid [2, 0, 1]

/-- C2: calling `emu_sort_local_quick` with `count == 0` is not a no-op and
accesses memory outside the (empty) buffer: `num - 1` wraps and reaches
`p_quick_sort` as `right = -1`, whose median-of-three computes `mid = -1`,
reads the words at element indices `-1` and `0`, and (with the surrounding
memory holding `-1` at index `-1` and `0` at index `0` under the `long`
comparator) swaps them.  The probe shows both out-of-range cells mutated. -/
theorem C2_quick_zero_count_mutates_out_of_range :
    (emu_sort_local_quick_mem intCmp 0 (fun i => i)).map
        (fun m => (m (-1), m 0)) = some (0, -1) ∧
    ((fun (i : Int) => i) (-1), (fun (i : Int) => i) 0) = (-1, 0) := by
  constructor
  · decide
  · decide

/-- C7: for every range `[left, right]` with `left ≤ right` and valid
comparator, the partition phase of `p_quick_sort` (median-of-three followed
by the two-cursor loop, with the fuel the embedding passes) terminates with
cursors `i > j`, every element at an index in `[left, j]` comparing `≤ 0`
against the pivot (the median-of-three value copied out before partitioning)
and every element in `[i, right]` comparing `≥ 0`, and the buffer a
permutation of the buffer before partitioning (memory outside the range
untouched). -/
theorem C7_partition_postcondition {cmp : α → α → Int} (h : CmpValid cmp)
    (mem : Int → α) {left right : Int} (hlr : left ≤ right) :
    ∃ mem2 i j,
      partLoop cmp (medianOfThree cmp mem left right (quickMid left right))
        ((right - left).toNat + 2) ((right - left).toNat + 2)
        (medianOfThree cmp mem left right) left right = some (mem2, i, j) ∧
      j < i ∧
      (∀ k, left ≤ k → k ≤ j →
        cmp (mem2 k)
          (medianOfThree cmp mem left right (quickMid left right)) ≤ 0) ∧
      (∀ k, i ≤ k → k ≤ right →
        0 ≤ cmp (mem2 k)
          (medianOfThree cmp mem left right (quickMid left right))) ∧
      (window mem2 left right).Perm (window mem left right) ∧
      (∀ k, k < left ∨ right < k → mem2 k = mem k) := by
  have hmed := medianOfThree_perm_frame cmp mem hlr
  have hsent := medianOfThree_sentinels h mem hlr
  have hmid := quickMid_bounds hlr
  obtain ⟨mem2, i2, j2, hpart, hji, hli, hjr, hir, hlj, hL, hR, hperm2,
      hframe2⟩ :=
    @partLoop_spec _ cmp h
      (medianOfThree cmp mem left right (quickMid left right)) left right
      ((right - left).toNat + 2)
      (le_refl ((right - left).toNat + 2)) ((right - left).toNat + 2)
      (medianOfThree cmp mem left right) left right
      (le_refl left) (by omega) (by omega) (le_refl right)
      (fun k hk1 hk2 => absurd hk2 (by omega))
      (fun k hk1 hk2 => absurd hk1 (by omega))
      (fun _ => ⟨⟨right, by omega, le_refl right, hsent.2⟩,
        ⟨left, le_refl left, by omega, hsent.1⟩⟩)
      (Or.inl ⟨rfl, rfl, quickMid left right, hmid.1, hmid.2.1, h.refl _⟩)
      (by omega) (by omega)
  refine ⟨mem2, i2, j2, hpart, hji, ?_, ?_, hperm2.trans hmed.1, ?_⟩
  · intro k hk1 hk2
    exact hL k hk1 (by omega)
  · intro k hk1 hk2
    exact hR k (by omega) hk2
  · intro k hk
    rw [hframe2 k hk, hmed.2 k hk]

/-- C7 witness: the partition postcondition applied to a concrete 3-element
buffer. -/
theorem C7_partition_postcondition_witness :
    ∃ mem2 i j,
      partLoop intCmp
        (medianOfThree intCmp (fun k => 2 - k) 0 2 (quickMid 0 2))
        ((2 - 0 : Int).toNat + 2) ((2 - 0 : Int).toNat + 2)
        (medianOfThree intCmp (fun k => 2 - k) 0 2) 0 2 = some (mem2, i, j) ∧
      j < i ∧
      (∀ k, 0 ≤ k → k ≤ j →
        intCmp (mem2 k)
          (medianOfThree intCmp (fun k => 2 - k) 0 2 (quickMid 0 2)) ≤ 0) ∧
      (∀ k, i ≤ k → k ≤ 2 →
        0 ≤ intCmp (mem2 k)
          (medianOfThree intCmp (fun k => 2 - k) 0 2 (quickMid 0 2))) ∧
      (window mem2 0 2).Perm (window (fun k => 2 - k) 0 2) ∧
      (∀ k, k < 0 ∨ 2 < k → mem2 k = 2 - k) :=
  C7_partition_postcondition intCmp_valid (fun k => 2 - k) (by omega)

/-!
## The power-of-two helper and the bitonic compare-swap pass -/

theorem hp2_go_spec : ∀ fuel (e n : Nat), n ≤ 2 ^ 63 → 2 ^ e < n →
    64 - e < fuel →
    ∃ k, hp2_go n fuel (2 ^ e) = 2 ^ k ∧ 2 ^ k < n ∧ n ≤ 2 ^ (k + 1) := by
  intro fuel
  induction fuel with
  | zero => intro e n _ _ hcon; omega
  | succ f ih =>
    intro e n hn he hf
    have hpos : 0 < 2 ^ e := Nat.two_pow_pos e
    have hlt63 : e < 63 := by
      have h1 : 2 ^ e < 2 ^ 63 := lt_of_lt_of_le he hn
      exact (Nat.pow_lt_pow_iff_right (by omega)).mp h1
    have hstep : 2 ^ e * 2 % 2 ^ 64 = 2 ^ (e + 1) := by
      rw [show (2 : Nat) ^ e * 2 = 2 ^ (e + 1) from by ring]
      refine Nat.mod_eq_of_lt ?_
      exact (Nat.pow_lt_pow_iff_right (by omega)).mpr (by omega)
    simp only [hp2_go]
    rw [if_pos ⟨hpos, he⟩, hstep]
    by_cases hnext : 2 ^ (e + 1) < n
    · exact ih (e + 1) n hn hnext (by omega)
    · have hout : hp2_go n f (2 ^ (e + 1)) = 2 ^ (e + 1) / 2 := by
        cases f with
        | zero => rfl
        | succ f2 =>
          simp only [hp2_go]
          rw [if_neg (by omega)]
      refine ⟨e, ?_, he, by omega⟩
      rw [hout, pow_succ]
      omega

theorem highestPowerofTwoLessThan_spec {n : Nat} (h2 : 2 ≤ n)
    (h63 : n ≤ 2 ^ 63) :
    ∃ k, highestPowerofTwoLessThan n = 2 ^ k ∧ 2 ^ k < n ∧ n ≤ 2 ^ (k + 1) := by
  have h1 := hp2_go_spec 65 0 n h63 (by omega) (by omega)
  simpa [highestPowerofTwoLessThan] using h1

theorem cswap_frame (cmp : α → α → Int) (asec : Bool) (l : List α)
    (i j : Nat) :
    ∀ k, k ≠ i → k ≠ j → (cswap cmp asec l i j)[k]? = l[k]? := by
  intro k hki hkj
  unfold cswap
  rcases hi : l.get? i with _ | x
  · rfl
  · rcases hj : l.get? j with _ | y
    · rfl
    · show (if (if asec = true then 0 < cmp x y else cmp x y < 0) then
          (l.set i y).set j x else l)[k]? = l[k]?
      split <;> split <;>
        first
          | rfl
          | rw [List.getElem?_set_ne (show j ≠ k from by omega),
              List.getElem?_set_ne (show i ≠ k from by omega)]

theorem bit_pass_frame (cmp : α → α → Int) (asec : Bool) (m low : Nat) :
    ∀ (cnt : Nat) (l : List α) (k : Nat),
      (k < low ∨ (low + cnt ≤ k ∧ k < low + m) ∨ low + m + cnt ≤ k) →
      (bit_pass cmp asec m low cnt l)[k]? = l[k]? := by
  intro cnt
  induction cnt with
  | zero => intro l k _; rfl
  | succ c ih =>
    intro l k hk
    have hstep : bit_pass cmp asec m low (c + 1) l =
        cswap cmp asec (bit_pass cmp asec m low c l) (low + c) (low + c + m) := by
      unfold bit_pass
      rw [List.range_succ, List.foldl_append]
      rfl
    rw [hstep, cswap_frame cmp asec _ _ _ k (by omega) (by omega),
      ih l k (by omega)]

/-- C8 counterexample: for `num = 2^63 + 1` (a `size_t` value with the top bit
set), the doubling `res <<= 1` wraps to 0, the `res > 0` guard exits, and
`highestPowerofTwoLessThan` returns `0 >> 1 = 0`, which is not a power of two
at all (the largest power of two strictly below `2^63 + 1` is `2^63`). -/
theorem C8_counterexample_hp2lt_overflow :
    highestPowerofTwoLessThan (2 ^ 63 + 1) = 0 ∧ ¬ IsPow2 0 ∧
      IsPow2 (2 ^ 63) ∧ (2 : Nat) ^ 63 < 2 ^ 63 + 1 := by
  refine ⟨by decide, ?_, ⟨63, rfl⟩, by omega⟩
  rintro ⟨k, hk⟩
  have := Nat.two_pow_pos k
  omega

/-- C8 (amended): for every `2 ≤ num ≤ 2^63`, `highestPowerofTwoLessThan num`
is the largest power of two strictly less than `num` (for `num > 2^63` the
`size_t` doubling wraps and the function returns 0 instead), and the
compare-and-swap pass of `p_bitonic_merge`, which pairs `(i, i+m)` for
`i ∈ [low, low + (num - m))` with this `m` as split point, touches no index
outside `[low, low + num)`. -/
theorem C8_hp2lt_and_bitonic_pass {cmp : α → α → Int} :
    (∀ n : Nat, 2 ≤ n → n ≤ 2 ^ 63 →
      IsPow2 (highestPowerofTwoLessThan n) ∧ highestPowerofTwoLessThan n < n ∧
      ∀ p, IsPow2 p → p < n → p ≤ highestPowerofTwoLessThan n) ∧
    (∀ (asec : Bool) (l : List α) (low num : Nat) (k : Nat),
      k < low ∨ low + num ≤ k →
      (bit_pass cmp asec (highestPowerofTwoLessThan num) low
          (num - highestPowerofTwoLessThan num) l)[k]? = l[k]?) := by
  constructor
  · intro n hn2 hn63
    obtain ⟨k, hk1, hk2, hk3⟩ := highestPowerofTwoLessThan_spec hn2 hn63
    refine ⟨⟨k, hk1⟩, by omega, ?_⟩
    rintro p ⟨e, rfl⟩ hp
    have he : e < k + 1 := by
      have hlt : (2 : Nat) ^ e < 2 ^ (k + 1) := by omega
      exact (Nat.pow_lt_pow_iff_right Nat.one_lt_two).mp hlt
    rw [hk1]
    exact Nat.pow_le_pow_right (by omega) (by omega)
  · intro asec l low num k hk
    by_cases hm : highestPowerofTwoLessThan num ≤ num
    · exact bit_pass_frame cmp asec _ low _ l k (by omega)
    · have hc : num - highestPowerofTwoLessThan num = 0 := by omega
      rw [hc]
      rfl

/-- C8 witness: the amended statement at `num = 33` (the split point is 32)
and a concrete out-of-range index of the pass. -/
theorem C8_hp2lt_and_bitonic_pass_witness :
    (IsPow2 (highestPowerofTwoLessThan 33) ∧ highestPowerofTwoLessThan 33 < 33 ∧
      ∀ p, IsPow2 p → p < 33 → p ≤ highestPowerofTwoLessThan 33) ∧
    (bit_pass natCmp true (highestPowerofTwoLessThan 33) 2
        (33 - highestPowerofTwoLessThan 33) (List.replicate 40 5))[1]? =
      (List.replicate 40 5)[1]? :=
  ⟨(@C8_hp2lt_and_bitonic_pass Nat natCmp).1 33 (by omega) (by omega),
   (@C8_hp2lt_and_bitonic_pass Nat natCmp).2 true (List.replicate 40 5) 2
     33 1 (by omega)⟩

/-!
## The byte-level `swap` primitive -/

theorem swap_eq_swapWord (a b : Int) (mem : Int → Nat) :
    swap a b 8 mem = swapWord a b mem := by
  show (List.range 1).foldl
      (fun m (k : Nat) => swapWord (a + 64 * (k : Int)) (b + 64 * (k : Int)) m)
      mem =
    swapWord a b mem
  rw [show List.range 1 = [0] from rfl]
  show swapWord (a + 64 * ((0 : Nat) : Int)) (b + 64 * ((0 : Nat) : Int)) mem =
    swapWord a b mem
  norm_num

theorem swapWord_readBlock_fst (a b : Int) (mem : Int → Nat) :
    readBlock (swapWord a b mem) a 8 = readBlock mem b 8 := by
  simp only [readBlock]
  refine List.map_congr_left (fun t ht => ?_)
  rw [List.mem_range] at ht
  show swapWord a b mem (a + (t : Int)) = mem (b + (t : Int))
  unfold swapWord
  rw [if_pos (by omega)]
  congr 1
  omega

theorem swapWord_readBlock_snd {a b : Int} (hd : a + 8 ≤ b ∨ b + 8 ≤ a)
    (mem : Int → Nat) :
    readBlock (swapWord a b mem) b 8 = readBlock mem a 8 := by
  simp only [readBlock]
  refine List.map_congr_left (fun t ht => ?_)
  rw [List.mem_range] at ht
  show swapWord a b mem (b + (t : Int)) = mem (a + (t : Int))
  unfold swapWord
  rw [if_neg (by omega), if_pos (by omega)]
  congr 1
  omega

theorem swapWord_frame (x y : Int) (mem : Int → Nat) (k : Int)
    (hx : ¬(x ≤ k ∧ k < x + 8)) (hy : ¬(y ≤ k ∧ k < y + 8)) :
    swapWord x y mem k = mem k := by
  unfold swapWord
  rw [if_neg hx, if_neg hy]

theorem swap_go_frame (a b : Int) :
    ∀ (ks : List Nat) (mem : Int → Nat) (k : Int),
      (∀ i ∈ ks, ¬(a + 64 * (i : Int) ≤ k ∧ k < a + 64 * (i : Int) + 8) ∧
                 ¬(b + 64 * (i : Int) ≤ k ∧ k < b + 64 * (i : Int) + 8)) →
      (ks.foldl
        (fun m (k2 : Nat) =>
          swapWord (a + 64 * (k2 : Int)) (b + 64 * (k2 : Int)) m)
        mem) k = mem k := by
  intro ks
  induction ks with
  | nil => intro mem k _; rfl
  | cons i is ih =>
    intro mem k hk
    rw [List.foldl_cons,
      ih _ k (fun j hj => hk j (List.mem_cons_of_mem _ hj)),
      swapWord_frame _ _ mem k (hk i (List.mem_cons_self _ _)).1
        (hk i (List.mem_cons_self _ _)).2]

theorem swap_frame {a b : Int} (size : Nat) (mem : Int → Nat) (k : Int)
    (hk : k ∉ swap_touched a b size) : swap a b size mem k = mem k := by
  unfold swap swap_touched at *
  by_cases h8 : size % 8 = 0
  · rw [if_pos h8]
    rw [if_pos h8] at hk
    refine swap_go_frame a b _ mem k ?_
    intro i hi
    constructor
    · rintro ⟨h1, h2⟩
      refine hk ?_
      rw [List.mem_flatMap]
      refine ⟨i, hi, ?_⟩
      rw [List.mem_append]
      left
      rw [List.mem_map]
      refine ⟨(k - (a + 64 * (i : Int))).toNat, ?_, ?_⟩
      · rw [List.mem_range]; omega
      · omega
    · rintro ⟨h1, h2⟩
      refine hk ?_
      rw [List.mem_flatMap]
      refine ⟨i, hi, ?_⟩
      rw [List.mem_append]
      right
      rw [List.mem_map]
      refine ⟨(k - (b + 64 * (i : Int))).toNat, ?_, ?_⟩
      · rw [List.mem_range]; omega
      · omega
  · rw [if_neg h8]

/-- C10: the element-exchange primitive `swap` (lines 491-510) is only
faithful at `size = 8`.  (i) At `size = 8`, on disjoint regions it exchanges
exactly the 8 bytes at `a` and `b` and leaves everything else unchanged.
(ii) For `size` not a multiple of 8 it is the identity on all of memory (its
byte branch is commented out).  (iii) For multiples of 8, `p[i]` with the
byte-stride counter `i = 0, 8, ...` addresses the word at byte offset `64*k`
in iteration `k`, so for `size ≥ 16` the touched-address set contains an
address at or beyond `a + size` (and beyond `b + size` when `b ≤ a`), i.e.
outside both `size`-byte regions, while every address outside the touched set
is unchanged; concretely `swap(0, 16, 16)` on the identity memory rewrites the
byte at address 64.  Exchanges in the quick-sort partition and in the bitonic
leaf reversal go through this primitive (`partLoopB`, `leaf_sort`). -/
theorem C10_swap_word_stride {a b : Int} (mem : Int → Nat) :
    ((a + 8 ≤ b ∨ b + 8 ≤ a) →
      readBlock (swap a b 8 mem) a 8 = readBlock mem b 8 ∧
      readBlock (swap a b 8 mem) b 8 = readBlock mem a 8 ∧
      ∀ k, ¬(a ≤ k ∧ k < a + 8) → ¬(b ≤ k ∧ k < b + 8) →
        swap a b 8 mem k = mem k) ∧
    (∀ size : Nat, size % 8 ≠ 0 → swap a b size mem = mem) ∧
    (∀ size : Nat, size % 8 = 0 → 16 ≤ size → b ≤ a →
      a + 64 * ((size / 8 - 1 : Nat) : Int) ∈ swap_touched a b size ∧
      a + (size : Int) ≤ a + 64 * ((size / 8 - 1 : Nat) : Int) ∧
      b + (size : Int) ≤ a + 64 * ((size / 8 - 1 : Nat) : Int)) ∧
    (∀ (size : Nat) (k : Int), k ∉ swap_touched a b size →
      swap a b size mem k = mem k) ∧
    swap 0 16 16 (fun i => i.toNat) 64 = 80 := by
  refine ⟨?_, ?_, ?_, fun size k hk => swap_frame size mem k hk, by decide⟩
  · intro hd
    rw [swap_eq_swapWord]
    refine ⟨swapWord_readBlock_fst a b mem, swapWord_readBlock_snd hd mem, ?_⟩
    intro k hka hkb
    exact swapWord_frame a b mem k hka hkb
  · intro size hs
    unfold swap
    rw [if_neg hs]
  · intro size h8 h16 hba
    refine ⟨?_, by omega, by omega⟩
    unfold swap_touched
    rw [if_pos h8, List.mem_flatMap]
    refine ⟨size / 8 - 1, ?_, ?_⟩
    · rw [List.mem_range]; omega
    · rw [List.mem_append]
      left
      rw [List.mem_map]
      exact ⟨0, by rw [List.mem_range]; omega, by simp⟩

/-- C10 witness: the swap behavior trichotomy at concrete addresses `a = 0`,
`b = 16` with the identity memory: the 8-byte exchange, the `size = 12`
no-op, and the out-of-range touched address of `size = 16`. -/
theorem C10_swap_word_stride_witness :
    (readBlock (swap 0 16 8 (fun i => i.toNat)) 0 8 =
        readBlock (fun i => i.toNat) 16 8 ∧
      readBlock (swap 0 16 8 (fun i => i.toNat)) 16 8 =
        readBlock (fun i => i.toNat) 0 8 ∧
      ∀ k, ¬((0 : Int) ≤ k ∧ k < 0 + 8) → ¬((16 : Int) ≤ k ∧ k < 16 + 8) →
        swap 0 16 8 (fun i => i.toNat) k = (fun i => i.toNat) k) ∧
    swap 0 16 12 (fun i => i.toNat) = (fun i => i.toNat) ∧
    ((16 : Int) + 64 * ((16 / 8 - 1 : Nat) : Int) ∈ swap_touched 16 0 16 ∧
      (16 : Int) + (16 : Int) ≤ 16 + 64 * ((16 / 8 - 1 : Nat) : Int) ∧
      (0 : Int) + (16 : Int) ≤ 16 + 64 * ((16 / 8 - 1 : Nat) : Int)) :=
  ⟨(@C10_swap_word_stride 0 16 (fun i => i.toNat)).1 (Or.inl (by omega)),
   (@C10_swap_word_stride 0 16 (fun i => i.toNat)).2.1 12 (by omega),
   (@C10_swap_word_stride 16 0 (fun i => i.toNat)).2.2.1 16
      (by omega) (by omega) (by omega)⟩

/-!
## The `my_memcpy` assertion and element sizes -/

theorem my_memcpy_spec (mem : Int → Nat) (dst src : Int) (n : Nat)
    (h8 : n % 8 = 0) :
    ∃ f, my_memcpy mem dst src n = some f ∧
      readBlock f dst n = readBlock mem src n ∧
      ∀ k, k < dst ∨ dst + (n : Int) ≤ k → f k = mem k := by
  refine ⟨fun k => if dst ≤ k ∧ k < dst + (n : Int) then mem (src + (k - dst))
      else mem k, ?_, ?_, ?_⟩
  · unfold my_memcpy
    rw [if_pos h8]
  · simp only [readBlock]
    refine List.map_congr_left (fun t ht => ?_)
    rw [List.mem_range] at ht
    show (if dst ≤ dst + (t : Int) ∧ dst + (t : Int) < dst + (n : Int) then
        mem (src + (dst + (t : Int) - dst)) else mem (dst + (t : Int))) =
      mem (src + (t : Int))
    rw [if_pos (by omega)]
    congr 1
    omega
  · intro k hk
    show (if dst ≤ k ∧ k < dst + (n : Int) then mem (src + (k - dst))
        else mem k) = mem k
    rw [if_neg (by omega)]

/-- C4 counterexample: sorting a single element of `elementSize = 4` with the
quick strategy already aborts — the pivot copy `my_memcpy(pivot, mid, size)`
asserts `(n & 0x7) == 0` (line 66), which fails for `n = 4`.  The claim says
every `elementSize > 0`, in particular 4, runs with no internally triggered
failure. -/
theorem C4_counterexample_elementsize_4_assert :
    emu_sort_local_quick_bytes lexCmpB 4 1 (fun _ => 0) = none := rfl

/-- C4 (amended): element copies only succeed for element sizes that are
multiples of 8 (including every copy performed with `n = size * count` for
such sizes): for `n % 8 = 0` the `my_memcpy` assertion passes and the word
loop copies exactly the bytes `[dst, dst + n)` from `src`, touching nothing
else; and with `elementSize = 8` the quick-sort entry point runs to
completion.  For every `n` with `n % 8 ≠ 0` the assertion fires, so the
claimed "no internally triggered failure for every elementSize > 0" only
holds on multiples of 8. -/
theorem C4_amended_aligned_copies :
    (∀ (mem : Int → Nat) (dst src : Int) (n : Nat), n % 8 = 0 →
      ∃ f, my_memcpy mem dst src n = some f ∧
        readBlock f dst n = readBlock mem src n ∧
        ∀ k, k < dst ∨ dst + (n : Int) ≤ k → f k = mem k) ∧
    (emu_sort_local_quick_bytes lexCmpB 8 1 (fun _ => 0)).isSome = true := by
  refine ⟨fun mem dst src n h8 => my_memcpy_spec mem dst src n h8, ?_⟩
  rfl

/-- C4 witness: the amended copy specification applied to the identity
memory, `dst = 100`, `src = 0`, `n = 8`. -/
theorem C4_amended_aligned_copies_witness :
    ∃ f, my_memcpy (fun i => i.toNat) 100 0 8 = some f ∧
      readBlock f 100 8 = readBlock (fun i => i.toNat) 0 8 ∧
      ∀ k, k < 100 ∨ 100 + ((8 : Nat) : Int) ≤ k → f k = (fun i => i.toNat) k :=
  C4_amended_aligned_copies.1 (fun i => i.toNat) 100 0 8 (by decide)

end EmuSort
